import Mathlib

/-!
Verification of the Senyas ASL recognition core against its specification.

The development embeds the gesture-classification engine of the repository:
the landmark geometry analyzer, the static letter table and matcher, the
temporal debouncer, the Gemini text-append path, the recording toggle, and
the skin-region contour extractor (flood fill over a pixel buffer).
Coordinates normalized to [0,1] are embedded as rationals; pixel coordinates
as integers; JavaScript null/undefined as Option; code that can throw as
Except.
-/

namespace Senyas

/-! ### Generic fold lemmas for running minima and maxima

The source initializes running minima with Infinity (or with the frame
width/height) and folds min/max over a list; these lemmas characterize such
folds. -/

theorem foldl_min_le_start {α : Type} (f : α → ℚ) (l : List α) (b : ℚ) :
    l.foldl (fun m a => min m (f a)) b ≤ b := by
  induction l generalizing b with
  | nil => exact le_refl b
  | cons hd tl ih => exact le_trans (ih (min b (f hd))) (min_le_left _ _)

theorem foldl_min_le_of_mem {α : Type} (f : α → ℚ) (l : List α) (b : ℚ)
    (a : α) (ha : a ∈ l) : l.foldl (fun m a => min m (f a)) b ≤ f a := by
  induction l generalizing b with
  | nil => cases ha
  | cons hd tl ih =>
    rcases List.mem_cons.1 ha with h | h
    · subst h
      exact le_trans (foldl_min_le_start f tl (min b (f a))) (min_le_right _ _)
    · exact ih (min b (f hd)) h

theorem foldl_min_eq_or_mem {α : Type} (f : α → ℚ) (l : List α) (b : ℚ) :
    l.foldl (fun m a => min m (f a)) b = b ∨ ∃ a ∈ l, l.foldl (fun m a => min m (f a)) b = f a := by
  induction l generalizing b with
  | nil => exact Or.inl rfl
  | cons hd tl ih =>
    rcases ih (min b (f hd)) with h | ⟨a, ha, h⟩
    · rcases min_cases b (f hd) with ⟨he, _⟩ | ⟨he, _⟩
      · exact Or.inl (by simpa [he] using h)
      · exact Or.inr ⟨hd, List.mem_cons_self hd tl, by simpa [he] using h⟩
    · exact Or.inr ⟨a, List.mem_cons_of_mem hd ha, h⟩

theorem foldl_max_start_le {α : Type} (f : α → ℚ) (l : List α) (b : ℚ) :
    b ≤ l.foldl (fun m a => max m (f a)) b := by
  induction l generalizing b with
  | nil => exact le_refl b
  | cons hd tl ih => exact le_trans (le_max_left _ _) (ih (max b (f hd)))

theorem foldl_max_le_of_mem {α : Type} (f : α → ℚ) (l : List α) (b : ℚ)
    (a : α) (ha : a ∈ l) : f a ≤ l.foldl (fun m a => max m (f a)) b := by
  induction l generalizing b with
  | nil => cases ha
  | cons hd tl ih =>
    rcases List.mem_cons.1 ha with h | h
    · subst h
      exact le_trans (le_max_right _ _) (foldl_max_start_le f tl (max b (f a)))
    · exact ih (max b (f hd)) h

theorem foldl_max_eq_or_mem {α : Type} (f : α → ℚ) (l : List α) (b : ℚ) :
    l.foldl (fun m a => max m (f a)) b = b ∨ ∃ a ∈ l, l.foldl (fun m a => max m (f a)) b = f a := by
  induction l generalizing b with
  | nil => exact Or.inl rfl
  | cons hd tl ih =>
    rcases ih (max b (f hd)) with h | ⟨a, ha, h⟩
    · rcases max_cases b (f hd) with ⟨he, _⟩ | ⟨he, _⟩
      · exact Or.inl (by simpa [he] using h)
      · exact Or.inr ⟨hd, List.mem_cons_self hd tl, by simpa [he] using h⟩
    · exact Or.inr ⟨a, List.mem_cons_of_mem hd ha, h⟩

/-! ### Data model: landmarks and finger states (App.tsx) -/

/-- A MediaPipe hand landmark; only the x and y coordinates are read by the
analyzer (normalized image coordinates, smaller y = higher). -/
structure Landmark where
  x : ℚ
  y : ℚ
deriving DecidableEq

/-- JavaScript array indexing `landmarks[k]` on a hand of 21 landmarks. -/
def lm (h : List Landmark) (k : ℕ) : Landmark := h.getD k ⟨0, 0⟩

/-- Running minimum of x over the landmarks; the source folds Math.min
starting from Infinity, which over a nonempty list equals a fold started at
the head. -/
def minXof : List Landmark → ℚ
  | [] => 0
  | p :: t => t.foldl (fun m q => min m q.x) p.x

def minYof : List Landmark → ℚ
  | [] => 0
  | p :: t => t.foldl (fun m q => min m q.y) p.y

def maxXof : List Landmark → ℚ
  | [] => 0
  | p :: t => t.foldl (fun m q => max m q.x) p.x

def maxYof : List Landmark → ℚ
  | [] => 0
  | p :: t => t.foldl (fun m q => max m q.y) p.y

/-- The `size` computed by calculateHandSize in App.tsx:
max of bounding-box width and height. -/
def handSize (h : List Landmark) : ℚ :=
  max (maxXof h - minXof h) (maxYof h - minYof h)

inductive DistanceJudgment where
  | too_far
  | too_close
  | good
deriving DecidableEq

/-- calculateHandSize from App.tsx: derives the distance judgment that the
source stores in the handDistance state, paired with the boolean the source
returns (true exactly on a good distance). -/
def calculateHandSize (h : List Landmark) : DistanceJudgment × Bool :=
  if handSize h < 1/10 then (DistanceJudgment.too_far, false)
  else if 4/5 < handSize h then (DistanceJudgment.too_close, false)
  else (DistanceJudgment.good, true)

structure FingerStates where
  thumb : Bool
  index : Bool
  middle : Bool
  ring : Bool
  pinky : Bool
  isCurved : Bool
deriving DecidableEq

/-- isFingerExtended from App.tsx. The source dispatches on the reference
equality test `tip === thumbTip`; the five call sites pass the thumb tip
object exactly for the thumb finger, which this embedding records in the
tipIsThumb flag. -/
def isFingerExtended (tipIsThumb : Bool) (tip mcp pip : Landmark) : Bool :=
  if tipIsThumb then decide ((1 : ℚ)/10 < |tip.x - mcp.x|)
  else decide (tip.y < mcp.y - 1/10 ∧ tip.y < pip.y - 1/10)

/-- The fingerStates record built in analyzeHandLandmarks (App.tsx), with the
landmark indices used at each call site; isCurved is the literal false. -/
def fingerStatesOf (h : List Landmark) : FingerStates :=
  { thumb := isFingerExtended true (lm h 4) (lm h 2) (lm h 3)
    index := isFingerExtended false (lm h 8) (lm h 6) (lm h 7)
    middle := isFingerExtended false (lm h 12) (lm h 10) (lm h 11)
    ring := isFingerExtended false (lm h 16) (lm h 14) (lm h 15)
    pinky := isFingerExtended false (lm h 20) (lm h 18) (lm h 19)
    isCurved := false }

/-- analyzeHandLandmarks from App.tsx: null when the hand is not at a good
distance, otherwise the finger-state record. -/
def analyzeHandLandmarks (h : List Landmark) : Option FingerStates :=
  if (calculateHandSize h).2 = false then none else some (fingerStatesOf h)

/-- Reference finger-state vector written from the specification wording:
thumb extended iff the lateral displacement of landmark 4 from landmark 2
exceeds 0.1 strictly; every other finger extended iff its tip y is strictly
more than 0.1 above both its mcp y and its pip y; isCurved always false. -/
def specFingerVector (h : List Landmark) : FingerStates :=
  { thumb := decide ((1 : ℚ)/10 < |(lm h 4).x - (lm h 2).x|)
    index := decide ((lm h 8).y < (lm h 6).y - 1/10 ∧ (lm h 8).y < (lm h 7).y - 1/10)
    middle := decide ((lm h 12).y < (lm h 10).y - 1/10 ∧ (lm h 12).y < (lm h 11).y - 1/10)
    ring := decide ((lm h 16).y < (lm h 14).y - 1/10 ∧ (lm h 16).y < (lm h 15).y - 1/10)
    pinky := decide ((lm h 20).y < (lm h 18).y - 1/10 ∧ (lm h 20).y < (lm h 19).y - 1/10)
    isCurved := false }

/-! ### The static letter table and the matcher (App.tsx) -/

/-- An ASL_LETTERS table entry; an absent isCurved field is none. -/
structure ASLPattern where
  thumb : Bool
  index : Bool
  middle : Bool
  ring : Bool
  pinky : Bool
  isCurved : Option Bool
deriving DecidableEq

/-- The ASL_LETTERS table from App.tsx, in insertion order. -/
def ASL_LETTERS : List (String × ASLPattern) :=
  [ ("A", ⟨true, false, false, false, false, some false⟩),
    ("B", ⟨false, true, true, true, true, none⟩),
    ("C", ⟨true, true, true, true, true, some true⟩),
    ("D", ⟨true, true, true, false, false, none⟩),
    ("E", ⟨true, false, false, false, false, some true⟩),
    ("F", ⟨true, true, true, false, false, none⟩),
    ("G", ⟨true, true, false, false, false, none⟩),
    ("H", ⟨true, true, true, false, false, none⟩),
    ("I", ⟨true, false, false, false, true, none⟩),
    ("K", ⟨true, true, true, false, false, none⟩),
    ("L", ⟨true, true, false, false, false, none⟩),
    ("M", ⟨true, false, false, false, false, some true⟩),
    ("N", ⟨true, false, false, false, false, some true⟩),
    ("O", ⟨true, false, false, false, false, some true⟩),
    ("P", ⟨true, true, true, false, false, none⟩),
    ("Q", ⟨true, true, false, false, false, none⟩),
    ("R", ⟨true, true, true, false, false, none⟩),
    ("S", ⟨true, false, false, false, false, none⟩),
    ("T", ⟨true, true, false, false, false, none⟩),
    ("U", ⟨true, true, true, false, false, none⟩),
    ("V", ⟨true, true, true, false, false, none⟩),
    ("W", ⟨true, true, true, true, true, none⟩),
    ("X", ⟨true, true, false, false, false, none⟩),
    ("Y", ⟨true, false, false, false, true, none⟩),
    ("Z", ⟨true, true, false, false, false, none⟩) ]

/-- JavaScript truthiness of the optional isCurved field: only the literal
true is truthy; undefined and false are falsy. -/
def jsTruthy (b : Option Bool) : Bool := b == some true

/-- JavaScript strict equality between the optional pattern field and the
boolean vector field: undefined === b is false. -/
def jsStrictEq (a : Option Bool) (b : Bool) : Bool := a == some b

/-- The per-pattern condition of recognizeLetter (App.tsx): the five finger
booleans compare equal, and `!pattern.isCurved || pattern.isCurved ===
fingerStates.isCurved`. -/
def patternMatches (p : ASLPattern) (fs : FingerStates) : Bool :=
  p.thumb == fs.thumb && p.index == fs.index && p.middle == fs.middle &&
    p.ring == fs.ring && p.pinky == fs.pinky &&
    (!(jsTruthy p.isCurved) || jsStrictEq p.isCurved fs.isCurved)

/-- recognizeLetter from App.tsx: first table entry whose pattern matches. -/
def recognizeLetter (fs : FingerStates) : Option String :=
  (ASL_LETTERS.find? (fun e => patternMatches e.2 fs)).map (fun e => e.1)

/-- The matcher as the claim words it: a pattern that specifies isCurved
(whether true or false) must equal the vector's isCurved; an absent isCurved
is a wildcard. -/
def specCurvedOk (pc : Option Bool) (c : Bool) : Bool :=
  match pc with
  | none => true
  | some b => b == c

def recognizeLetterSpec (fs : FingerStates) : Option String :=
  (ASL_LETTERS.find? (fun e =>
    e.2.thumb == fs.thumb && e.2.index == fs.index && e.2.middle == fs.middle &&
      e.2.ring == fs.ring && e.2.pinky == fs.pinky &&
      specCurvedOk e.2.isCurved fs.isCurved)).map (fun e => e.1)

/-- The matcher semantics the code actually implements: only a pattern whose
isCurved is the literal true constrains the vector (it then requires the
vector's isCurved to be true); isCurved false or absent is a wildcard. -/
def amendedCurvedOk (pc : Option Bool) (c : Bool) : Bool :=
  match pc with
  | some true => c
  | _ => true

def recognizeLetterAmended (fs : FingerStates) : Option String :=
  (ASL_LETTERS.find? (fun e =>
    e.2.thumb == fs.thumb && e.2.index == fs.index && e.2.middle == fs.middle &&
      e.2.ring == fs.ring && e.2.pinky == fs.pinky &&
      amendedCurvedOk e.2.isCurved fs.isCurved)).map (fun e => e.1)

/-- The letter labels of the table in insertion order. -/
def aslKeys : List String := ASL_LETTERS.map (fun e => e.1)

/-! ### Theorems for claims C1, C2, C3, C8, C10 -/

theorem calculateHandSize_good (h : List Landmark) (h1 : 1/10 ≤ handSize h)
    (h2 : handSize h ≤ 4/5) : calculateHandSize h = (DistanceJudgment.good, true) := by
  rw [calculateHandSize, if_neg (not_lt.mpr h1), if_neg (not_lt.mpr h2)]

theorem analyzeHandLandmarks_good (h : List Landmark) (h1 : 1/10 ≤ handSize h)
    (h2 : handSize h ≤ 4/5) : analyzeHandLandmarks h = some (fingerStatesOf h) := by
  rw [analyzeHandLandmarks, calculateHandSize_good h h1 h2]
  simp

theorem analyzeHandLandmarks_far (h : List Landmark) (hlt : handSize h < 1/10) :
    analyzeHandLandmarks h = none := by
  rw [analyzeHandLandmarks, calculateHandSize, if_pos hlt]
  simp

/-- C1: for every hand of 21 landmarks, analyzeHandLandmarks computes
size = max(bounding-box width, bounding-box height) over all 21 points and
returns null exactly when size < 0.1 (judgment too_far) or size > 0.8
(judgment too_close); for every size in [0.1, 0.8] it reports judgment good
and returns a non-null finger-state vector. -/
theorem analyzeHandLandmarks_distance_spec (h : List Landmark) (hlen : h.length = 21) :
    (analyzeHandLandmarks h = none ↔ (handSize h < 1/10 ∨ 4/5 < handSize h)) ∧
    (handSize h < 1/10 → (calculateHandSize h).1 = DistanceJudgment.too_far) ∧
    (4/5 < handSize h → (calculateHandSize h).1 = DistanceJudgment.too_close) ∧
    (1/10 ≤ handSize h → handSize h ≤ 4/5 →
      (calculateHandSize h).1 = DistanceJudgment.good ∧
        analyzeHandLandmarks h = some (fingerStatesOf h)) ∧
    (∀ p ∈ h, minXof h ≤ p.x ∧ p.x ≤ maxXof h ∧ minYof h ≤ p.y ∧ p.y ≤ maxYof h) ∧
    (∃ p ∈ h, p.x = minXof h) ∧ (∃ p ∈ h, p.x = maxXof h) ∧
    (∃ p ∈ h, p.y = minYof h) ∧ (∃ p ∈ h, p.y = maxYof h) := by
  have hne : h ≠ [] := by
    intro he
    rw [he] at hlen
    exact absurd hlen (by decide)
  obtain ⟨p0, t, rfl⟩ : ∃ p0 t, h = p0 :: t := by
    cases h with
    | nil => exact absurd rfl hne
    | cons a b => exact ⟨a, b, rfl⟩
  refine ⟨?_, ?_, ?_, ?_, ?_, ?_, ?_, ?_, ?_⟩
  · constructor
    · intro hn
      by_contra hc
      push_neg at hc
      have h1 := hc.1
      have h2 := hc.2
      rw [analyzeHandLandmarks, calculateHandSize, if_neg (not_lt.mpr h1),
        if_neg (not_lt.mpr h2)] at hn
      simp at hn
    · intro hor
      rcases hor with hlt | hgt
      · rw [analyzeHandLandmarks, calculateHandSize, if_pos hlt]
        simp
      · have hnlt : ¬ handSize (p0 :: t) < 1/10 := by
          intro hx
          have : (4 : ℚ)/5 < 1/10 := lt_trans hgt hx
          norm_num at this
        rw [analyzeHandLandmarks, calculateHandSize, if_neg hnlt, if_pos hgt]
        simp
  · intro hlt
    rw [calculateHandSize, if_pos hlt]
  · intro hgt
    have hnlt : ¬ handSize (p0 :: t) < 1/10 := by
      intro hx
      have : (4 : ℚ)/5 < 1/10 := lt_trans hgt hx
      norm_num at this
    rw [calculateHandSize, if_neg hnlt, if_pos hgt]
  · intro h1 h2
    rw [analyzeHandLandmarks, calculateHandSize, if_neg (not_lt.mpr h1),
      if_neg (not_lt.mpr h2)]
    exact ⟨rfl, by simp⟩
  · intro p hp
    rcases List.mem_cons.1 hp with hp | hp
    · subst hp
      exact ⟨foldl_min_le_start Landmark.x t p.x,
        foldl_max_start_le Landmark.x t p.x,
        foldl_min_le_start Landmark.y t p.y,
        foldl_max_start_le Landmark.y t p.y⟩
    · exact ⟨foldl_min_le_of_mem Landmark.x t p0.x p hp,
        foldl_max_le_of_mem Landmark.x t p0.x p hp,
        foldl_min_le_of_mem Landmark.y t p0.y p hp,
        foldl_max_le_of_mem Landmark.y t p0.y p hp⟩
  · rcases foldl_min_eq_or_mem Landmark.x t p0.x with he | ⟨a, ha, he⟩
    · exact ⟨p0, List.mem_cons_self _ _, he.symm⟩
    · exact ⟨a, List.mem_cons_of_mem _ ha, he.symm⟩
  · rcases foldl_max_eq_or_mem Landmark.x t p0.x with he | ⟨a, ha, he⟩
    · exact ⟨p0, List.mem_cons_self _ _, he.symm⟩
    · exact ⟨a, List.mem_cons_of_mem _ ha, he.symm⟩
  · rcases foldl_min_eq_or_mem Landmark.y t p0.y with he | ⟨a, ha, he⟩
    · exact ⟨p0, List.mem_cons_self _ _, he.symm⟩
    · exact ⟨a, List.mem_cons_of_mem _ ha, he.symm⟩
  · rcases foldl_max_eq_or_mem Landmark.y t p0.y with he | ⟨a, ha, he⟩
    · exact ⟨p0, List.mem_cons_self _ _, he.symm⟩
    · exact ⟨a, List.mem_cons_of_mem _ ha, he.symm⟩

/-- A 21-landmark hand collapsed to one point: bounding box size 0, too far. -/
def tooFarHand : List Landmark := List.replicate 21 ⟨1/2, 1/2⟩

/-- Witness for C1 at a concrete 21-landmark hand of size 0. -/
theorem analyzeHandLandmarks_distance_spec_witness :
    analyzeHandLandmarks tooFarHand = none ∧
      (calculateHandSize tooFarHand).1 = DistanceJudgment.too_far :=
  ⟨((analyzeHandLandmarks_distance_spec tooFarHand (by decide)).1).2
      (Or.inl (by norm_num [tooFarHand, handSize, minXof, minYof, maxXof, maxYof,
        List.replicate_succ])),
    ((analyzeHandLandmarks_distance_spec tooFarHand (by decide)).2.1)
      (by norm_num [tooFarHand, handSize, minXof, minYof, maxXof, maxYof,
        List.replicate_succ])⟩

/-- C2: for every hand of 21 landmarks at a good distance, the finger-state
vector returned by analyzeHandLandmarks equals the reference definition:
thumb extended iff the lateral offset of landmark 4 from landmark 2 strictly
exceeds 0.1; index (8,6,7), middle (12,10,11), ring (16,14,15), pinky
(20,18,19) extended iff the tip y is strictly more than 0.1 smaller than both
the mcp y and the pip y; and isCurved is always false. -/
theorem analyzeHandLandmarks_fingerStates_spec (h : List Landmark) (hlen : h.length = 21)
    (h1 : 1/10 ≤ handSize h) (h2 : handSize h ≤ 4/5) :
    analyzeHandLandmarks h = some (specFingerVector h) := by
  rw [analyzeHandLandmarks_good h h1 h2]
  rfl

/-- A concrete hand at a good distance: index finger raised, all else packed
near the wrist. -/
def goodHand : List Landmark :=
  [⟨1/2, 3/5⟩, ⟨2/5, 3/5⟩, ⟨2/5, 11/20⟩, ⟨2/5, 1/2⟩, ⟨2/5, 9/20⟩,
   ⟨1/2, 1/2⟩, ⟨1/2, 9/20⟩, ⟨1/2, 2/5⟩, ⟨1/2, 1/4⟩,
   ⟨11/20, 1/2⟩, ⟨11/20, 9/20⟩, ⟨11/20, 11/20⟩, ⟨11/20, 1/2⟩,
   ⟨3/5, 1/2⟩, ⟨3/5, 9/20⟩, ⟨3/5, 11/20⟩, ⟨3/5, 1/2⟩,
   ⟨13/20, 1/2⟩, ⟨13/20, 9/20⟩, ⟨13/20, 11/20⟩, ⟨13/20, 1/2⟩]

/-- Witness for C2 at a concrete in-range hand. -/
theorem analyzeHandLandmarks_fingerStates_spec_witness :
    analyzeHandLandmarks goodHand = some (specFingerVector goodHand) :=
  analyzeHandLandmarks_fingerStates_spec goodHand (by decide)
    (by norm_num [goodHand, handSize, minXof, minYof, maxXof, maxYof])
    (by norm_num [goodHand, handSize, minXof, minYof, maxXof, maxYof])

/-- A finger-state vector with thumb extended, all fingers bent, and the
curved flag set. -/
def curvedFist : FingerStates := ⟨true, false, false, false, false, true⟩

/-- C3 counterexample: on a vector with isCurved true, the claimed matching
rule picks E (first pattern whose specified isCurved equals the vector's),
but the code returns A, whose pattern specifies isCurved false and is
nevertheless accepted because `!pattern.isCurved` is true for a false field. -/
theorem recognizeLetter_claim_counterexample :
    recognizeLetter curvedFist = some "A" ∧
      recognizeLetterSpec curvedFist = some "E" ∧
      recognizeLetter curvedFist ≠ recognizeLetterSpec curvedFist := by
  refine ⟨rfl, rfl, ?_⟩
  decide

/-- C3 amended: recognizeLetter returns the first table entry whose five
finger booleans equal the vector's and whose isCurved, when the pattern
specifies isCurved as the literal true, requires the vector's isCurved to be
true; a pattern with isCurved false or absent matches regardless of the
vector's curved flag; null when no entry matches. -/
theorem recognizeLetter_amended_spec (fs : FingerStates) :
    recognizeLetter fs = recognizeLetterAmended fs := by
  obtain ⟨t, i, m, r, p, c⟩ := fs
  cases t <;> cases i <;> cases m <;> cases r <;> cases p <;> cases c <;> rfl

/-- C8 counterexample: the table does not have 24 entries; it has 25. -/
theorem aslTable_claim_counterexample : ¬ ASL_LETTERS.length = 24 := by
  decide

/-- C8 amended: the static letter table has exactly 25 entries, each keyed by
a single uppercase letter, and J is absent from the key set. -/
theorem aslTable_amended_spec :
    ASL_LETTERS.length = 25 ∧
      (aslKeys.all (fun k => k.length == 1 && k.toList.all (fun ch => ch.isUpper))) = true ∧
      ("J" ∈ aslKeys) = False := by
  refine ⟨rfl, rfl, ?_⟩
  simp only [eq_iff_iff, iff_false]
  decide

/-- C10: on any vector whose isCurved flag is false (which is every vector the
analyzer produces), recognizeLetter returns null or one of A, B, D, G, I, W;
and every table entry outside that set either specifies isCurved as true or
repeats the five finger booleans of an earlier entry. -/
theorem recognizeLetter_reachable_letters (fs : FingerStates) (hc : fs.isCurved = false) :
    (recognizeLetter fs = none ∨
      recognizeLetter fs ∈ [some "A", some "B", some "D", some "G", some "I", some "W"]) ∧
    (∀ e ∈ ASL_LETTERS.enum, e.2.1 ∉ (["A", "B", "D", "G", "I", "W"] : List String) →
      e.2.2.isCurved = some true ∨
        ∃ e2 ∈ ASL_LETTERS.enum, e2.1 < e.1 ∧
          e2.2.2.thumb = e.2.2.thumb ∧ e2.2.2.index = e.2.2.index ∧
          e2.2.2.middle = e.2.2.middle ∧ e2.2.2.ring = e.2.2.ring ∧
          e2.2.2.pinky = e.2.2.pinky) := by
  constructor
  · obtain ⟨t, i, m, r, p, c⟩ := fs
    have hc2 : c = false := hc
    subst hc2
    revert t i m r p
    decide
  · decide

/-! ### The per-frame recognition step while recording (App.tsx, hands.onResults)

The source calls recognizeLetter(analyzeHandLandmarks(landmarks)) without a
null check.  recognizeLetter starts by reading fingerStates.thumb, so a null
fingerStates raises a TypeError; that fallible property read is embedded as
Except. -/

/-- recognizeLetter applied to a possibly-null fingerStates, as the
hands.onResults callback does: reading `.thumb` on null throws. -/
def recognizeLetterNullable (fs : Option FingerStates) : Except Unit (Option String) :=
  match fs with
  | none => Except.error ()
  | some v => Except.ok (recognizeLetter v)

/-- The recognition step on one recording frame from App.tsx:
`recognizeLetter (analyzeHandLandmarks landmarks)`. -/
def recognizeFrame (h : List Landmark) : Except Unit (Option String) :=
  recognizeLetterNullable (analyzeHandLandmarks h)

/-- C6 (code bug): on a recording frame whose hand is too far (bounding-box
size 0 < 0.1), analyzeHandLandmarks returns null as specified, but the next
step of the pipeline faults instead of skipping the frame: recognizeLetter
dereferences the null finger-state record. -/
theorem recognizeFrame_bad_distance_faults :
    analyzeHandLandmarks tooFarHand = none ∧
      recognizeFrame tooFarHand = Except.error () := by
  have hn : analyzeHandLandmarks tooFarHand = none :=
    analyzeHandLandmarks_far tooFarHand
      (by norm_num [tooFarHand, handSize, minXof, minYof, maxXof, maxYof,
        List.replicate_succ])
  exact ⟨hn, by rw [recognizeFrame, hn]; rfl⟩

/-! ### The temporal debouncer (App.tsx, recognitionTimeoutRef logic)

State of the debounce protocol: lastRecognizedRef, the pending 500 ms timer
(candidate letter and absolute deadline), and the accumulated output text
modelled as the list of appended letters.  On a frame with a non-null
candidate, any pending timer is cleared (clearTimeout) and a fresh 500 ms
timer is started; a timer that fires uninterrupted appends its letter iff it
differs from lastRecognizedRef. -/

structure DebounceState where
  lastRecognized : String
  pending : Option (String × ℕ)
  output : List String
deriving DecidableEq

def initDebounce : DebounceState := ⟨"", none, []⟩

/-- The setTimeout callback from App.tsx: compare the fired letter with
lastRecognizedRef; append and update only on change. -/
def fireTimer (s : DebounceState) : DebounceState :=
  match s.pending with
  | none => s
  | some (l, _) =>
    if l ≠ s.lastRecognized then ⟨l, none, s.output ++ [l]⟩
    else ⟨s.lastRecognized, none, s.output⟩

/-- One recognition frame carrying candidate letter l at time t: a pending
timer whose deadline elapsed strictly before the frame has already fired;
otherwise clearTimeout cancels it; then a fresh 500 ms timer is started. -/
def onFrame (s : DebounceState) (t : ℕ) (l : String) : DebounceState :=
  let s1 := match s.pending with
    | some (_, d) => if d < t then fireTimer s else s
    | none => s
  ⟨s1.lastRecognized, some (l, t + 500), s1.output⟩

def runFrames (s : DebounceState) : List (ℕ × String) → DebounceState
  | [] => s
  | (t, l) :: rest => runFrames (onFrame s t l) rest

/-- A whole observation: run the frames, then let the final pending timer
fire once frames stop arriving. -/
def runTrace (frames : List (ℕ × String)) : DebounceState :=
  fireTimer (runFrames initDebounce frames)

/-- The debounce invariant along a constant-letter hold: the letter has been
appended at most once, and exactly when lastRecognized has become the letter. -/
def GoodDeb (l : String) (s : DebounceState) : Prop :=
  (s.lastRecognized = "" ∧ s.output = []) ∨ (s.lastRecognized = l ∧ s.output = [l])

theorem goodDeb_fireTimer (l : String) (s : DebounceState)
    (hinv : GoodDeb l s) (hp : s.pending = none ∨ ∃ d, s.pending = some (l, d)) :
    GoodDeb l (fireTimer s) := by
  obtain ⟨sl, sp, so⟩ := s
  rcases hp with hp | ⟨d, hp⟩ <;> simp only at hp <;> subst hp
  · exact hinv
  · rcases hinv with ⟨h1, h2⟩ | ⟨h1, h2⟩ <;> simp only at h1 h2 <;> subst h1 <;> subst h2
    · by_cases hl : l = ""
      · subst hl
        simp [GoodDeb, fireTimer]
      · simp [GoodDeb, fireTimer, hl]
    · simp [GoodDeb, fireTimer]

theorem goodDeb_onFrame (l : String) (t : ℕ) (s : DebounceState)
    (hinv : GoodDeb l s) (hp : s.pending = none ∨ ∃ d, s.pending = some (l, d)) :
    GoodDeb l (onFrame s t l) ∧ (onFrame s t l).pending = some (l, t + 500) := by
  refine ⟨?_, rfl⟩
  have hfire := goodDeb_fireTimer l s hinv hp
  obtain ⟨sl, sp, so⟩ := s
  rcases hp with hp | ⟨d, hp⟩ <;> simp only at hp <;> subst hp
  · exact hinv
  · by_cases hd : d < t
    · simp only [GoodDeb, onFrame, if_pos hd]
      exact hfire
    · simp only [GoodDeb, onFrame, if_neg hd]
      exact hinv

theorem runFrames_constant (l : String) :
    ∀ (ts : List ℕ) (s : DebounceState),
      GoodDeb l s → (s.pending = none ∨ ∃ d, s.pending = some (l, d)) →
      GoodDeb l (runFrames s (ts.map (fun t => (t, l)))) ∧
        (ts = [] → (runFrames s (ts.map (fun t => (t, l)))).pending = s.pending) ∧
        (ts ≠ [] → ∃ d, (runFrames s (ts.map (fun t => (t, l)))).pending = some (l, d)) := by
  intro ts
  induction ts with
  | nil =>
    intro s hinv hp
    exact ⟨hinv, fun _ => rfl, fun hne => absurd rfl hne⟩
  | cons t rest ih =>
    intro s hinv hp
    obtain ⟨hinv1, hpend1⟩ := goodDeb_onFrame l t s hinv hp
    have hrun : runFrames s ((t :: rest).map (fun u => (u, l))) =
        runFrames (onFrame s t l) (rest.map (fun u => (u, l))) := rfl
    obtain ⟨hg, hnil, hne⟩ := ih (onFrame s t l) hinv1 (Or.inr ⟨t + 500, hpend1⟩)
    refine ⟨by rw [hrun]; exact hg, fun hcon => absurd hcon (by simp), fun _ => ?_⟩
    rcases rest with _ | ⟨t2, rest2⟩
    · exact ⟨t + 500, by rw [hrun, hnil rfl]; exact hpend1⟩
    · obtain ⟨d, hd⟩ := hne (by simp)
      exact ⟨d, by rw [hrun]; exact hd⟩

theorem fireTimer_output (l : String) (d : ℕ) (s : DebounceState)
    (hl : l ≠ "") (hinv : GoodDeb l s) (hp : s.pending = some (l, d)) :
    (fireTimer s).output = [l] := by
  obtain ⟨sl, sp, so⟩ := s
  simp only at hp
  subst hp
  rcases hinv with ⟨h1, h2⟩ | ⟨h1, h2⟩ <;> simp only at h1 h2 <;> subst h1 <;> subst h2
  · simp [fireTimer, hl]
  · simp [fireTimer]

/-- C4: holding a single letter on every frame with gaps of at most 500 ms
appends it exactly once over the whole hold (the timer that survives the last
frame fires it once); and the sequence A, B, A, each held until its timer
fires, appends the three entries A, B, A. -/
theorem debounce_protocol_spec :
    (∀ (ts : List ℕ) (l : String), ts ≠ [] → l ≠ "" →
      ts.Chain' (fun a b => b ≤ a + 500) →
      (runTrace (ts.map (fun t => (t, l)))).output = [l]) ∧
    (runTrace [(0, "A"), (1000, "B"), (2000, "A")]).output = ["A", "B", "A"] := by
  constructor
  · intro ts l hne hl _
    obtain ⟨hinv, _, hpend⟩ := runFrames_constant l ts initDebounce
      (Or.inl ⟨rfl, rfl⟩) (Or.inl rfl)
    obtain ⟨d, hd⟩ := hpend (by simpa using hne)
    exact fireTimer_output l d _ hl hinv hd
  · rfl

/-- Witness for C4 at a concrete two-frame hold of the letter A. -/
theorem debounce_protocol_spec_witness :
    (runTrace ([0, 400].map (fun t => (t, "A")))).output = ["A"] :=
  debounce_protocol_spec.1 [0, 400] "A" (by simp) (by simp) (by simp)

/-! ### Recording toggle and session state (App.tsx, toggleRecording) -/

/-- The slice of App component state that the recording toggle and the
debouncer touch. -/
structure AppState where
  isRecording : Bool
  recordedSigns : List String
  lastRecognized : String
  pendingTimer : Option (String × ℕ)
  currentLetter : String
deriving DecidableEq

/-- toggleRecording from App.tsx: flips isRecording and, when starting,
clears only the recordedSignsRef buffer. -/
def toggleRecording (s : AppState) : AppState :=
  let s1 : AppState := { s with isRecording := !s.isRecording }
  if !s.isRecording then { s1 with recordedSigns := [] } else s1

/-- A state left behind by a previous session: lastRecognized A, a timer in
flight, not recording. -/
def staleState : AppState := ⟨false, [], "A", some ("B", 700), "A"⟩

/-- C7 counterexample: starting recording from a stale session does not reset
the debounce state: lastRecognized stays A and the pending timer survives. -/
theorem toggleRecording_claim_counterexample :
    (toggleRecording staleState).isRecording = true ∧
      ¬ ((toggleRecording staleState).lastRecognized = "" ∧
          (toggleRecording staleState).pendingTimer = none) := by
  refine ⟨rfl, ?_⟩
  intro hc
  exact absurd hc.1 (by decide)

/-- C7 amended: the start-recording transition sets isRecording and clears
only the recordedSigns buffer; lastRecognized and any pending 500 ms timer
carry over unchanged from the previous session (they are reset only by the
clear-text action). -/
theorem toggleRecording_amended_spec (s : AppState) (hs : s.isRecording = false) :
    (toggleRecording s).isRecording = true ∧
      (toggleRecording s).recordedSigns = [] ∧
      (toggleRecording s).lastRecognized = s.lastRecognized ∧
      (toggleRecording s).pendingTimer = s.pendingTimer ∧
      (toggleRecording s).currentLetter = s.currentLetter := by
  simp [toggleRecording, hs]

/-- Witness for C7 (amended) at the stale session state. -/
theorem toggleRecording_amended_spec_witness :
    (toggleRecording staleState).isRecording = true ∧
      (toggleRecording staleState).recordedSigns = [] ∧
      (toggleRecording staleState).lastRecognized = staleState.lastRecognized ∧
      (toggleRecording staleState).pendingTimer = staleState.pendingTimer ∧
      (toggleRecording staleState).currentLetter = staleState.currentLetter :=
  toggleRecording_amended_spec staleState rfl

/-! ### The Gemini path (App.tsx, processWithGemini)

The service interaction is a promise that either resolves with a response
text or rejects; embedded as Except.  On resolution the source trims the
text and appends it to currentLetter unless it is empty (falsy) or the
literal "unknown"; a rejection is caught, logged, and changes nothing. -/

/-- JavaScript String.trim: strip whitespace from both ends.  Written over
the character list so that it is kernel-computable. -/
def jsTrim (s : String) : String :=
  String.mk (((s.toList.dropWhile Char.isWhitespace).reverse.dropWhile
    Char.isWhitespace).reverse)

/-- The effect of processWithGemini on the currentLetter text. -/
def processWithGemini (current : String) (serviceResult : Except Unit String) : String :=
  match serviceResult with
  | Except.error _ => current
  | Except.ok resp =>
    let r := jsTrim resp
    if r ≠ "" ∧ r ≠ "unknown" then current ++ r else current

/-- C9 counterexample: a malformed (non-letter, non-"unknown") service
response is appended to the session text verbatim, so it does surface to the
output as garbage, contrary to the claim that service malfunctions leave the
text unchanged. -/
theorem processWithGemini_claim_counterexample :
    processWithGemini "" (Except.ok "??") = "??" ∧ ("??" : String) ≠ "" := by
  refine ⟨by decide, by decide⟩

/-- C9 amended: a resolved response is trimmed and appended directly (no
debouncing) exactly when the trimmed text is non-empty and differs from the
literal "unknown" — including malformed non-letter text; empty and "unknown"
responses are dropped; a rejected (thrown/timeout) service call is caught
and leaves the session text unchanged. -/
theorem processWithGemini_amended_spec :
    (∀ current : String, processWithGemini current (Except.error ()) = current) ∧
    (∀ current : String, processWithGemini current (Except.ok "unknown") = current) ∧
    (∀ current resp : String, jsTrim resp = "" →
      processWithGemini current (Except.ok resp) = current) ∧
    (∀ current resp : String, jsTrim resp ≠ "" → jsTrim resp ≠ "unknown" →
      processWithGemini current (Except.ok resp) = current ++ jsTrim resp) := by
  refine ⟨fun current => rfl, ?_, ?_, ?_⟩
  · intro current
    rw [processWithGemini]
    rw [if_neg]
    intro hc
    exact absurd (by decide : jsTrim "unknown" = "unknown") hc.2
  · intro current resp ht
    rw [processWithGemini]
    rw [if_neg]
    intro hc
    exact absurd ht hc.1
  · intro current resp h1 h2
    rw [processWithGemini]
    rw [if_pos ⟨h1, h2⟩]

/-- Witness for C9 (amended) at concrete inputs. -/
theorem processWithGemini_amended_spec_witness :
    processWithGemini "AB" (Except.ok " C ") = "AB" ++ jsTrim " C " ∧
      processWithGemini "AB" (Except.ok "  ") = "AB" :=
  ⟨processWithGemini_amended_spec.2.2.2 "AB" " C " (by decide) (by decide),
    processWithGemini_amended_spec.2.2.1 "AB" "  " (by decide)⟩

/-- Witness for C10 at the all-bent vector with isCurved false. -/
theorem recognizeLetter_reachable_letters_witness :
    (recognizeLetter ⟨true, false, false, false, false, false⟩ = none ∨
      recognizeLetter ⟨true, false, false, false, false, false⟩ ∈
        [some "A", some "B", some "D", some "G", some "I", some "W"]) ∧
    (∀ e ∈ ASL_LETTERS.enum, e.2.1 ∉ (["A", "B", "D", "G", "I", "W"] : List String) →
      e.2.2.isCurved = some true ∨
        ∃ e2 ∈ ASL_LETTERS.enum, e2.1 < e.1 ∧
          e2.2.2.thumb = e.2.2.thumb ∧ e2.2.2.index = e.2.2.index ∧
          e2.2.2.middle = e.2.2.middle ∧ e2.2.2.ring = e.2.2.ring ∧
          e2.2.2.pinky = e.2.2.pinky) :=
  recognizeLetter_reachable_letters ⟨true, false, false, false, false, false⟩ rfl


/-! ### The skin-region contour extractor (unnamed source file, findLargestContour)

The pixel buffer, the flood fill over white pixels with an explicit stack
and a visited set of flattened pixel indices, the raster scan keeping the
largest component, and the bounding box of the winner. -/

namespace Contour


/-- The ImageData consumed by the contour extractor: RGBA bytes in raster
order. -/
structure ImageData where
  width : ℕ
  height : ℕ
  data : List ℕ

/-- getPixelIndex from the contour-extractor source: flattened RGBA index.
Integer-valued because the flood fill also forms it for out-of-range
neighbor coordinates. -/
def pixIdx (img : ImageData) (x y : ℤ) : ℤ := (y * img.width + x) * 4

/-- isWhitePixel from the source: bounds check, then red channel == 255. -/
def isWhitePixel (img : ImageData) (x y : ℤ) : Bool :=
  if x < 0 ∨ (img.width : ℤ) ≤ x ∨ y < 0 ∨ (img.height : ℤ) ≤ y then false
  else img.data.getD (pixIdx img x y).toNat 0 == 255

/-- The 8-connected neighbor list of the source, in its order. -/
def neighborsOf (x y : ℤ) : List (ℤ × ℤ) :=
  [(x+1, y), (x-1, y), (x, y+1), (x, y-1),
   (x+1, y+1), (x-1, y-1), (x+1, y-1), (x-1, y+1)]

/-- The neighbor loop of floodFill: push (cons, top of stack at the head)
every neighbor that satisfies the condition, in list order. -/
def pushIf (p : ℤ × ℤ → Prop) [DecidablePred p] (base : List (ℤ × ℤ)) :
    List (ℤ × ℤ) → List (ℤ × ℤ)
  | [] => base
  | q :: rest => pushIf p (if p q then q :: base else base) rest

theorem pushIf_eq_foldl (p : ℤ × ℤ → Prop) [DecidablePred p] (base l : List (ℤ × ℤ)) :
    pushIf p base l = l.foldl (fun st q => if p q then q :: st else st) base := by
  induction l generalizing base with
  | nil => rfl
  | cons q rest ih => simp only [pushIf, List.foldl_cons]; exact ih _

theorem length_pushIf_le (p : ℤ × ℤ → Prop) [DecidablePred p] (base l : List (ℤ × ℤ)) :
    (pushIf p base l).length ≤ base.length + l.length := by
  induction l generalizing base with
  | nil => simp [pushIf]
  | cons q rest ih =>
    simp only [pushIf]
    by_cases hq : p q
    · rw [if_pos hq]
      have := ih (q :: base)
      simp only [List.length_cons] at this ⊢
      omega
    · rw [if_neg hq]
      have := ih base
      simp only [List.length_cons] at this ⊢
      omega

theorem mem_pushIf (p : ℤ × ℤ → Prop) [DecidablePred p] (base l : List (ℤ × ℤ)) (q : ℤ × ℤ) :
    q ∈ pushIf p base l ↔ q ∈ base ∨ (q ∈ l ∧ p q) := by
  induction l generalizing base with
  | nil => simp [pushIf]
  | cons r rest ih =>
    simp only [pushIf]
    by_cases hr : p r
    · rw [if_pos hr, ih]
      constructor
      · rintro (h | h)
        · rcases List.mem_cons.1 h with h | h
          · exact Or.inr ⟨by simp [h], by rwa [h]⟩
          · exact Or.inl h
        · exact Or.inr ⟨List.mem_cons_of_mem r h.1, h.2⟩
      · rintro (h | ⟨h1, h2⟩)
        · exact Or.inl (List.mem_cons_of_mem r h)
        · rcases List.mem_cons.1 h1 with h | h
          · exact Or.inl (by simp [h])
          · exact Or.inr ⟨h, h2⟩
    · rw [if_neg hr, ih]
      constructor
      · rintro (h | h)
        · exact Or.inl h
        · exact Or.inr ⟨List.mem_cons_of_mem r h.1, h.2⟩
      · rintro (h | ⟨h1, h2⟩)
        · exact Or.inl h
        · rcases List.mem_cons.1 h1 with h | h
          · exact absurd (h ▸ h2) hr
          · exact Or.inr ⟨h, h2⟩

/-- The in-bounds pixel grid as a finite set (for the termination measure). -/
def gridPts (img : ImageData) : Finset (ℤ × ℤ) :=
  (Finset.range img.width ×ˢ Finset.range img.height).image
    (fun p => ((p.1 : ℤ), (p.2 : ℤ)))

/-- Indices of the white in-bounds pixels (for the termination measure). -/
def whiteIdxs (img : ImageData) : Finset ℤ :=
  ((gridPts img).filter (fun p => isWhitePixel img p.1 p.2 = true)).image
    (fun p => pixIdx img p.1 p.2)

theorem white_bounds (img : ImageData) (x y : ℤ) (h : isWhitePixel img x y = true) :
    0 ≤ x ∧ x < img.width ∧ 0 ≤ y ∧ y < img.height := by
  by_contra hc
  rw [isWhitePixel, if_pos (by push_neg at hc; omega)] at h
  exact absurd h (by simp)

theorem white_mem_whiteIdxs (img : ImageData) (x y : ℤ) (h : isWhitePixel img x y = true) :
    pixIdx img x y ∈ whiteIdxs img := by
  obtain ⟨h1, h2, h3, h4⟩ := white_bounds img x y h
  refine Finset.mem_image.2 ⟨(x, y), Finset.mem_filter.2 ⟨?_, h⟩, rfl⟩
  refine Finset.mem_image.2 ⟨(x.toNat, y.toNat), ?_, by simp [h1, h3]⟩
  refine Finset.mem_product.2 ⟨Finset.mem_range.2 ?_, Finset.mem_range.2 ?_⟩ <;> omega

/-- floodFill from the contour-extractor source: explicit stack, shared
visited set keyed by flattened pixel index, contour stored as coordinate
pairs rather than the source's flattened number list.  The source checks the
visited set, marks the pixel, skips non-white pixels, collects white ones
and pushes their unvisited white 8-neighbors. -/
def floodFill (img : ImageData) (visited : Finset ℤ) (stack : List (ℤ × ℤ))
    (contour : List (ℤ × ℤ)) (area : ℕ) : Finset ℤ × List (ℤ × ℤ) × ℕ :=
  match stack with
  | [] => (visited, contour, area)
  | (x, y) :: rest =>
    if pixIdx img x y ∈ visited then
      floodFill img visited rest contour area
    else if isWhitePixel img x y = true then
      floodFill img (insert (pixIdx img x y) visited)
        (pushIf
          (fun q => pixIdx img q.1 q.2 ∉ insert (pixIdx img x y) visited ∧
            isWhitePixel img q.1 q.2 = true)
          rest (neighborsOf x y))
        (contour ++ [(x, y)]) (area + 1)
    else
      floodFill img (insert (pixIdx img x y) visited) rest contour area
termination_by 9 * ((whiteIdxs img) \ visited).card + stack.length
decreasing_by
  · simp only [List.length_cons]
    omega
  · rename_i hni hw
    have hmem : pixIdx img x y ∈ (whiteIdxs img) \ visited :=
      Finset.mem_sdiff.2 ⟨white_mem_whiteIdxs img x y hw, hni⟩
    have hlt : ((whiteIdxs img) \ insert (pixIdx img x y) visited).card <
        ((whiteIdxs img) \ visited).card := by
      apply Finset.card_lt_card
      rw [Finset.ssubset_iff_of_subset
        (Finset.sdiff_subset_sdiff (Finset.Subset.refl _) (Finset.subset_insert _ _))]
      exact ⟨pixIdx img x y, hmem, by simp⟩
    have hlen := length_pushIf_le
      (fun q => pixIdx img q.1 q.2 ∉ insert (pixIdx img x y) visited ∧
        isWhitePixel img q.1 q.2 = true) rest (neighborsOf x y)
    simp only [neighborsOf, List.length_cons, List.length_nil] at hlen ⊢
    omega
  · have hle : ((whiteIdxs img) \ insert (pixIdx img x y) visited).card ≤
        ((whiteIdxs img) \ visited).card :=
      Finset.card_le_card
        (Finset.sdiff_subset_sdiff (Finset.Subset.refl _) (Finset.subset_insert _ _))
    simp only [List.length_cons]
    omega

/-- A coordinate pair whose pixel is white (hence in bounds). -/
def IsWhite (img : ImageData) (p : ℤ × ℤ) : Prop := isWhitePixel img p.1 p.2 = true

instance (img : ImageData) (p : ℤ × ℤ) : Decidable (IsWhite img p) :=
  inferInstanceAs (Decidable (isWhitePixel img p.1 p.2 = true))

/-- 8-connectivity of two distinct pixels. -/
def adj8 (p q : ℤ × ℤ) : Prop :=
  p ≠ q ∧ (p.1 - q.1).natAbs ≤ 1 ∧ (p.2 - q.2).natAbs ≤ 1

theorem adj8_symm {p q : ℤ × ℤ} (h : adj8 p q) : adj8 q p := by
  obtain ⟨h1, h2, h3⟩ := h
  exact ⟨fun he => h1 he.symm, by omega, by omega⟩

theorem mem_neighborsOf (x y : ℤ) (q : ℤ × ℤ) :
    q ∈ neighborsOf x y ↔ adj8 (x, y) q := by
  obtain ⟨a, b⟩ := q
  simp only [neighborsOf, adj8, List.mem_cons, List.mem_singleton, List.not_mem_nil,
    or_false, Prod.mk.injEq, ne_eq, not_and]
  constructor
  · rintro (⟨rfl, rfl⟩ | ⟨rfl, rfl⟩ | ⟨rfl, rfl⟩ | ⟨rfl, rfl⟩ | ⟨rfl, rfl⟩ | ⟨rfl, rfl⟩ |
      ⟨rfl, rfl⟩ | ⟨rfl, rfl⟩) <;> refine ⟨by intro h; omega, by omega, by omega⟩
  · rintro ⟨h1, h2, h3⟩
    have hx : a = x - 1 ∨ a = x ∨ a = x + 1 := by omega
    have hy : b = y - 1 ∨ b = y ∨ b = y + 1 := by omega
    rcases hx with rfl | rfl | rfl <;> rcases hy with rfl | rfl | rfl <;> omega

/-- One step inside the white region: both endpoints white and 8-adjacent. -/
def WAdj (img : ImageData) (p q : ℤ × ℤ) : Prop :=
  IsWhite img p ∧ IsWhite img q ∧ adj8 p q

/-- Connectivity within the white region; for a white s the set of p with
Reach img s p is the 8-connected white component of s. -/
def Reach (img : ImageData) : ℤ × ℤ → ℤ × ℤ → Prop :=
  Relation.ReflTransGen (WAdj img)

theorem reach_white {img : ImageData} {p q : ℤ × ℤ} (hp : IsWhite img p)
    (h : Reach img p q) : IsWhite img q := by
  induction h with
  | refl => exact hp
  | tail _ hstep ih => exact hstep.2.1

theorem reach_symm {img : ImageData} {p q : ℤ × ℤ} (h : Reach img p q) : Reach img q p :=
  Relation.ReflTransGen.symmetric
    (fun _ _ hab => ⟨hab.2.1, hab.1, adj8_symm hab.2.2⟩) h

theorem reach_trans {img : ImageData} {p q r : ℤ × ℤ} (h1 : Reach img p q)
    (h2 : Reach img q r) : Reach img p r :=
  Relation.ReflTransGen.trans h1 h2

theorem pixIdx_inj {img : ImageData} {p q : ℤ × ℤ} (hp : IsWhite img p) (hq : IsWhite img q)
    (h : pixIdx img p.1 p.2 = pixIdx img q.1 q.2) : p = q := by
  obtain ⟨x1, y1⟩ := p
  obtain ⟨x2, y2⟩ := q
  obtain ⟨ha1, ha2, ha3, ha4⟩ := white_bounds img x1 y1 hp
  obtain ⟨hb1, hb2, hb3, hb4⟩ := white_bounds img x2 y2 hq
  simp only [pixIdx] at h
  have h2 : y1 * img.width + x1 = y2 * img.width + x2 := by omega
  have hw : (1 : ℤ) ≤ img.width := by omega
  have hprod : (y1 - y2) * img.width = x2 - x1 := by ring_nf; linarith
  have hy : y1 = y2 := by
    rcases lt_trichotomy y1 y2 with hlt | heq | hgt
    · have h3 : y1 - y2 ≤ -1 := by omega
      have h4 : (y1 - y2) * img.width ≤ (-1) * img.width :=
        mul_le_mul_of_nonneg_right h3 (by omega)
      have h5 : (-1 : ℤ) * img.width = -img.width := by ring
      linarith
    · exact heq
    · have h3 : (1 : ℤ) ≤ y1 - y2 := by omega
      have h4 : (1 : ℤ) * img.width ≤ (y1 - y2) * img.width :=
        mul_le_mul_of_nonneg_right h3 (by omega)
      have h5 : (1 : ℤ) * img.width = img.width := by ring
      linarith
  subst hy
  have hx : x1 = x2 := by omega
  rw [hx]

/-- Short form of the pixel index of a coordinate pair. -/
def pIdx (img : ImageData) (p : ℤ × ℤ) : ℤ := pixIdx img p.1 p.2

theorem floodFill_spec (img : ImageData) (V : Finset ℤ) (st C : List (ℤ × ℤ)) (a : ℕ) :
    (∀ p ∈ st, IsWhite img p) →
    (∀ p ∈ C, IsWhite img p) →
    (C.map (pIdx img)).Nodup →
    a = C.length →
    (∀ p ∈ C, pIdx img p ∈ V) →
    (∀ p ∈ C, ∀ q, adj8 p q → IsWhite img q → pIdx img q ∈ V ∨ q ∈ st) →
    (∀ p ∈ C, p ∈ (floodFill img V st C a).2.1) ∧
      V ⊆ (floodFill img V st C a).1 ∧
      (floodFill img V st C a).2.2 = (floodFill img V st C a).2.1.length ∧
      ((floodFill img V st C a).2.1.map (pIdx img)).Nodup ∧
      (∀ p ∈ (floodFill img V st C a).2.1,
        IsWhite img p ∧ pIdx img p ∈ (floodFill img V st C a).1) ∧
      (∀ p ∈ (floodFill img V st C a).2.1, p ∈ C ∨ pIdx img p ∉ V) ∧
      (∀ p, IsWhite img p → pIdx img p ∈ (floodFill img V st C a).1 →
        pIdx img p ∈ V ∨ p ∈ (floodFill img V st C a).2.1) ∧
      (∀ i ∈ (floodFill img V st C a).1,
        i ∈ V ∨ ∃ p ∈ (floodFill img V st C a).2.1, pIdx img p = i) ∧
      (∀ p ∈ (floodFill img V st C a).2.1, p ∈ C ∨ ∃ q ∈ st, Reach img q p) ∧
      (∀ p ∈ (floodFill img V st C a).2.1, ∀ q, adj8 p q → IsWhite img q →
        pIdx img q ∈ (floodFill img V st C a).1) ∧
      (∀ q ∈ st, pIdx img q ∈ (floodFill img V st C a).1) := by
  induction V, st, C, a using floodFill.induct img with
  | case1 V C a =>
    intro h1 h2 h3 h4 h5 h7
    rw [floodFill]
    refine ⟨fun p hp => hp, Finset.Subset.refl V, h4, h3, fun p hp => ⟨h2 p hp, h5 p hp⟩,
      fun p hp => Or.inl hp, fun p _ hin => Or.inl hin, fun i hi => Or.inl hi,
      fun p hp => Or.inl hp, ?_, fun q hq => absurd hq (List.not_mem_nil q)⟩
    intro p hp q hadj hwq
    rcases h7 p hp q hadj hwq with h | h
    · exact h
    · exact absurd h (List.not_mem_nil q)
  | case2 V C a x y rest hmem ih =>
    intro h1 h2 h3 h4 h5 h7
    have h1r : ∀ p ∈ rest, IsWhite img p := fun p hp => h1 p (List.mem_cons_of_mem _ hp)
    have h7r : ∀ p ∈ C, ∀ q, adj8 p q → IsWhite img q → pIdx img q ∈ V ∨ q ∈ rest := by
      intro p hp q hadj hwq
      rcases h7 p hp q hadj hwq with h | h
      · exact Or.inl h
      · rcases List.mem_cons.1 h with h | h
        · subst h
          exact Or.inl hmem
        · exact Or.inr h
    obtain ⟨g0, g1, g2, g3, g4, g5, g6, g7, g8, g9, g10⟩ := ih h1r h2 h3 h4 h5 h7r
    rw [floodFill, if_pos hmem]
    refine ⟨g0, g1, g2, g3, g4, g5, g6, g7, ?_, g9, ?_⟩
    · intro p hp
      rcases g8 p hp with h | ⟨q, hq, hr⟩
      · exact Or.inl h
      · exact Or.inr ⟨q, List.mem_cons_of_mem _ hq, hr⟩
    · intro q hq
      rcases List.mem_cons.1 hq with h | h
      · subst h
        exact g1 hmem
      · exact g10 q h
  | case3 V C a x y rest hni hw ih =>
    intro h1 h2 h3 h4 h5 h7
    have hwp : IsWhite img (x, y) := hw
    have hVsub : V ⊆ insert (pixIdx img x y) V := Finset.subset_insert _ _
    have h1s : ∀ p ∈ pushIf
        (fun q => pixIdx img q.1 q.2 ∉ insert (pixIdx img x y) V ∧
          isWhitePixel img q.1 q.2 = true) rest (neighborsOf x y), IsWhite img p := by
      intro p hp
      rcases (mem_pushIf _ rest (neighborsOf x y) p).1 hp with h | ⟨_, _, h⟩
      · exact h1 p (List.mem_cons_of_mem _ h)
      · exact h
    have h2s : ∀ p ∈ C ++ [(x, y)], IsWhite img p := by
      intro p hp
      rcases List.mem_append.1 hp with h | h
      · exact h2 p h
      · rw [List.mem_singleton.1 h]
        exact hwp
    have h3s : ((C ++ [(x, y)]).map (pIdx img)).Nodup := by
      rw [List.map_append, List.nodup_append]
      refine ⟨h3, by simp, ?_⟩
      intro i hi hi2
      rw [List.mem_map] at hi
      obtain ⟨c, hc, rfl⟩ := hi
      simp only [List.map_cons, List.map_nil, List.mem_singleton] at hi2
      have hv := h5 c hc
      rw [hi2] at hv
      exact hni hv
    have h4s : a + 1 = (C ++ [(x, y)]).length := by
      rw [List.length_append, h4]
      rfl
    have h5s : ∀ p ∈ C ++ [(x, y)], pIdx img p ∈ insert (pixIdx img x y) V := by
      intro p hp
      rcases List.mem_append.1 hp with h | h
      · exact hVsub (h5 p h)
      · rw [List.mem_singleton.1 h]
        exact Finset.mem_insert_self _ _
    have h7s : ∀ p ∈ C ++ [(x, y)], ∀ q, adj8 p q → IsWhite img q →
        pIdx img q ∈ insert (pixIdx img x y) V ∨ q ∈ pushIf
          (fun q => pixIdx img q.1 q.2 ∉ insert (pixIdx img x y) V ∧
            isWhitePixel img q.1 q.2 = true) rest (neighborsOf x y) := by
      intro p hp q hadj hwq
      rcases List.mem_append.1 hp with h | h
      · rcases h7 p h q hadj hwq with hh | hh
        · exact Or.inl (hVsub hh)
        · rcases List.mem_cons.1 hh with hh | hh
          · subst hh
            exact Or.inl (Finset.mem_insert_self _ _)
          · exact Or.inr ((mem_pushIf _ _ _ q).2 (Or.inl hh))
      · rw [List.mem_singleton.1 h] at hadj
        by_cases hc : pIdx img q ∈ insert (pixIdx img x y) V
        · exact Or.inl hc
        · refine Or.inr ((mem_pushIf _ _ _ q).2 (Or.inr ⟨?_, hc, hwq⟩))
          exact (mem_neighborsOf x y q).2 hadj
    obtain ⟨g0, g1, g2, g3, g4, g5, g6, g7, g8, g9, g10⟩ := ih h1s h2s h3s h4s h5s h7s
    rw [floodFill, if_neg hni, if_pos hw]
    have hmemC1 : (x, y) ∈ C ++ [(x, y)] := List.mem_append.2 (Or.inr (by simp))
    refine ⟨?_, Finset.Subset.trans hVsub g1, g2, g3, g4, ?_, ?_, ?_, ?_, g9, ?_⟩
    · intro p hp
      exact g0 p (List.mem_append.2 (Or.inl hp))
    · intro p hp
      rcases g5 p hp with h | h
      · rcases List.mem_append.1 h with h | h
        · exact Or.inl h
        · rw [List.mem_singleton.1 h]
          exact Or.inr hni
      · exact Or.inr (fun hc => h (hVsub hc))
    · intro p hwhite hin
      rcases g6 p hwhite hin with h | h
      · rcases Finset.mem_insert.1 h with h | h
        · have hpe : p = (x, y) := pixIdx_inj hwhite hwp h
          exact Or.inr (g0 _ (hpe ▸ hmemC1))
        · exact Or.inl h
      · exact Or.inr h
    · intro i hi
      rcases g7 i hi with h | ⟨p, hp, hpi⟩
      · rcases Finset.mem_insert.1 h with h | h
        · exact Or.inr ⟨(x, y), g0 _ hmemC1, h.symm⟩
        · exact Or.inl h
      · exact Or.inr ⟨p, hp, hpi⟩
    · intro p hp
      rcases g8 p hp with h | ⟨q, hq, hr⟩
      · rcases List.mem_append.1 h with h | h
        · exact Or.inl h
        · refine Or.inr ⟨(x, y), List.mem_cons_self _ _, ?_⟩
          rw [List.mem_singleton.1 h]
          exact Relation.ReflTransGen.refl
      · rcases (mem_pushIf _ _ _ q).1 hq with hq2 | ⟨hnb, hcond⟩
        · exact Or.inr ⟨q, List.mem_cons_of_mem _ hq2, hr⟩
        · exact Or.inr ⟨(x, y), List.mem_cons_self _ _,
            reach_trans (Relation.ReflTransGen.single
              ⟨hwp, hcond.2, (mem_neighborsOf x y q).1 hnb⟩) hr⟩
    · intro q hq
      rcases List.mem_cons.1 hq with h | h
      · subst h
        exact g1 (Finset.mem_insert_self _ _)
      · exact g10 q ((mem_pushIf _ _ _ q).2 (Or.inl h))
  | case4 V C a x y rest hni hnw ih =>
    intro h1 h2 h3 h4 h5 h7
    exact absurd (h1 (x, y) (List.mem_cons_self _ _)) hnw

theorem floodFill_run (img : ImageData) (V : Finset ℤ) (s : ℤ × ℤ)
    (hs : IsWhite img s) (hns : pIdx img s ∉ V)
    (hV : ∀ i ∈ V, ∃ p, IsWhite img p ∧ pIdx img p = i)
    (hVc : ∀ p, IsWhite img p → pIdx img p ∈ V → ∀ q, adj8 p q → IsWhite img q →
      pIdx img q ∈ V) :
    (∀ p, p ∈ (floodFill img V [s] [] 0).2.1 ↔ Reach img s p) ∧
      (floodFill img V [s] [] 0).2.2 = (floodFill img V [s] [] 0).2.1.length ∧
      ((floodFill img V [s] [] 0).2.1.map (pIdx img)).Nodup ∧
      (∀ i, i ∈ (floodFill img V [s] [] 0).1 ↔
        i ∈ V ∨ ∃ p, Reach img s p ∧ pIdx img p = i) ∧
      (∀ p, Reach img s p → pIdx img p ∉ V) := by
  have havoid : ∀ p, Reach img s p → pIdx img p ∉ V := by
    intro p hr
    induction hr with
    | refl => exact hns
    | tail hab hbc ih =>
      intro hc
      exact ih (hVc _ hbc.2.1 hc _ (adj8_symm hbc.2.2) hbc.1)
  obtain ⟨g0, g1, g2, g3, g4, g5, g6, g7, g8, g9, g10⟩ :=
    floodFill_spec img V [s] [] 0
      (by intro p hp; rw [List.mem_singleton.1 hp]; exact hs)
      (by intro p hp; cases hp) (by simp) rfl (by intro p hp; cases hp)
      (by intro p hp; cases hp)
  have hsin : s ∈ (floodFill img V [s] [] 0).2.1 := by
    have hv := g10 s (List.mem_cons_self _ _)
    rcases g6 s hs hv with h | h
    · exact absurd h hns
    · exact h
  have hforward : ∀ p, Reach img s p → p ∈ (floodFill img V [s] [] 0).2.1 := by
    intro p hr
    induction hr with
    | refl => exact hsin
    | tail hab hbc ih =>
      have hin := g9 _ ih _ hbc.2.2 hbc.2.1
      rcases g6 _ hbc.2.1 hin with h | h
      · exact absurd h (havoid _ (Relation.ReflTransGen.tail hab hbc))
      · exact h
  have hback : ∀ p, p ∈ (floodFill img V [s] [] 0).2.1 → Reach img s p := by
    intro p hp
    rcases g8 p hp with h | ⟨q, hq, hr⟩
    · cases h
    · rw [List.mem_singleton.1 hq] at hr
      exact hr
  refine ⟨fun p => ⟨hback p, hforward p⟩, g2, g3, ?_, havoid⟩
  intro i
  constructor
  · intro hi
    rcases g7 i hi with h | ⟨p, hp, hpi⟩
    · exact Or.inl h
    · exact Or.inr ⟨p, hback p hp, hpi⟩
  · rintro (h | ⟨p, hr, hpi⟩)
    · exact g1 h
    · rw [← hpi]
      exact (g4 p (hforward p hr)).2

/-- Raster index of a pixel coordinate: row-major position in the scan. -/
def rIdx (img : ImageData) (p : ℤ × ℤ) : ℤ := p.2 * img.width + p.1

theorem pIdx_eq_rIdx (img : ImageData) (p : ℤ × ℤ) : pIdx img p = rIdx img p * 4 := rfl

def InBounds (img : ImageData) (p : ℤ × ℤ) : Prop :=
  0 ≤ p.1 ∧ p.1 < img.width ∧ 0 ≤ p.2 ∧ p.2 < img.height

theorem white_inBounds {img : ImageData} {p : ℤ × ℤ} (h : IsWhite img p) : InBounds img p :=
  white_bounds img p.1 p.2 h

theorem rIdx_inj {img : ImageData} {p q : ℤ × ℤ} (hp : InBounds img p) (hq : InBounds img q)
    (h : rIdx img p = rIdx img q) : p = q := by
  obtain ⟨x1, y1⟩ := p
  obtain ⟨x2, y2⟩ := q
  obtain ⟨ha1, ha2, ha3, ha4⟩ := hp
  obtain ⟨hb1, hb2, hb3, hb4⟩ := hq
  simp only [rIdx] at h
  have hw : (1 : ℤ) ≤ img.width := by omega
  have hprod : (y1 - y2) * img.width = x2 - x1 := by ring_nf; linarith
  have hy : y1 = y2 := by
    rcases lt_trichotomy y1 y2 with hlt | heq | hgt
    · have h3 : y1 - y2 ≤ -1 := by omega
      have h4 : (y1 - y2) * img.width ≤ (-1) * img.width :=
        mul_le_mul_of_nonneg_right h3 (by omega)
      have h5 : (-1 : ℤ) * img.width = -img.width := by ring
      linarith
    · exact heq
    · have h3 : (1 : ℤ) ≤ y1 - y2 := by omega
      have h4 : (1 : ℤ) * img.width ≤ (y1 - y2) * img.width :=
        mul_le_mul_of_nonneg_right h3 (by omega)
      have h5 : (1 : ℤ) * img.width = img.width := by ring
      linarith
  subst hy
  have hx : x1 = x2 := by omega
  rw [hx]

/-- The raster scan order of the main loop in findLargestContour: y outer,
x inner. -/
def scanPoints (img : ImageData) : List (ℤ × ℤ) :=
  (List.range img.height).flatMap
    (fun y : ℕ => (List.range img.width).map (fun x : ℕ => ((x : ℤ), (y : ℤ))))

theorem mem_scanPoints (img : ImageData) (p : ℤ × ℤ) :
    p ∈ scanPoints img ↔ InBounds img p := by
  constructor
  · intro hp
    rw [scanPoints, List.mem_flatMap] at hp
    obtain ⟨y, hy, hpin⟩ := hp
    rw [List.mem_map] at hpin
    obtain ⟨x, hx, rfl⟩ := hpin
    rw [List.mem_range] at hx hy
    refine ⟨Int.ofNat_nonneg x, ?_, Int.ofNat_nonneg y, ?_⟩
    · show (x : ℤ) < (img.width : ℤ)
      exact_mod_cast hx
    · show (y : ℤ) < (img.height : ℤ)
      exact_mod_cast hy
  · rintro ⟨h1, h2, h3, h4⟩
    rw [scanPoints, List.mem_flatMap]
    refine ⟨p.2.toNat, by rw [List.mem_range]; omega, ?_⟩
    rw [List.mem_map]
    refine ⟨p.1.toNat, by rw [List.mem_range]; omega, ?_⟩
    obtain ⟨a, b⟩ := p
    simp only at h1 h3 ⊢
    rw [Int.toNat_of_nonneg h1, Int.toNat_of_nonneg h3]

theorem scanPoints_pairwise (img : ImageData) :
    (scanPoints img).Pairwise (fun a b => rIdx img a < rIdx img b) := by
  rw [scanPoints, List.pairwise_flatMap]
  constructor
  · intro y hy
    rw [List.pairwise_map]
    refine (List.pairwise_lt_range img.width).imp ?_
    intro a b hab
    simp only [rIdx]
    omega
  · refine (List.pairwise_lt_range img.height).imp ?_
    intro y1 y2 hy p hp q hq
    rw [List.mem_map] at hp hq
    obtain ⟨x1, hx1, rfl⟩ := hp
    obtain ⟨x2, hx2, rfl⟩ := hq
    rw [List.mem_range] at hx1 hx2
    simp only [rIdx]
    have hcast : ((y1 : ℤ) + 1) * img.width ≤ (y2 : ℤ) * img.width := by
      refine mul_le_mul_of_nonneg_right ?_ (Int.ofNat_nonneg img.width)
      exact_mod_cast hy
    have hexp : ((y1 : ℤ) + 1) * img.width = (y1 : ℤ) * img.width + img.width := by ring
    have hx1i : (x1 : ℤ) < img.width := by exact_mod_cast hx1
    have hx2i : (0 : ℤ) ≤ x2 := Int.ofNat_nonneg x2
    linarith

structure ScanState where
  visited : Finset ℤ
  maxArea : ℕ
  largest : List (ℤ × ℤ)

/-- One iteration of the nested scan loop of findLargestContour: flood fill
from an unvisited white pixel; adopt the component when its area strictly
exceeds the best so far. -/
def scanStep (img : ImageData) (s : ScanState) (p : ℤ × ℤ) : ScanState :=
  if pixIdx img p.1 p.2 ∉ s.visited ∧ isWhitePixel img p.1 p.2 = true then
    if s.maxArea < (floodFill img s.visited [p] [] 0).2.2 then
      ⟨(floodFill img s.visited [p] [] 0).1, (floodFill img s.visited [p] [] 0).2.2,
        (floodFill img s.visited [p] [] 0).2.1⟩
    else ⟨(floodFill img s.visited [p] [] 0).1, s.maxArea, s.largest⟩
  else s

structure BBox where
  x : ℤ
  y : ℤ
  width : ℤ
  height : ℤ
deriving DecidableEq

/-- The bounding-box computation at the end of findLargestContour: running
minima start at the frame dimensions, running maxima at 0. -/
def contourBoundingBox (img : ImageData) (c : List (ℤ × ℤ)) : BBox :=
  let minX := c.foldl (fun m q => min m q.1) (img.width : ℤ)
  let minY := c.foldl (fun m q => min m q.2) (img.height : ℤ)
  let maxX := c.foldl (fun m q => max m q.1) 0
  let maxY := c.foldl (fun m q => max m q.2) 0
  ⟨minX, minY, maxX - minX, maxY - minY⟩

/-- findLargestContour from the contour-extractor source file: raster scan,
flood fill per unvisited white pixel, keep the strictly largest component,
return its bounding box, or null when no white pixel exists. -/
def findLargestContour (img : ImageData) : Option BBox :=
  if ((scanPoints img).foldl (scanStep img) ⟨∅, 0, []⟩).largest = [] then none
  else some (contourBoundingBox img ((scanPoints img).foldl (scanStep img) ⟨∅, 0, []⟩).largest)

theorem length_eq_of_same_mem {α : Type} {l1 l2 : List α} (h1 : l1.Nodup) (h2 : l2.Nodup)
    (hm : ∀ a, a ∈ l1 ↔ a ∈ l2) : l1.length = l2.length :=
  le_antisymm (List.subperm_of_subset h1 (fun a ha => (hm a).1 ha)).length_le
    (List.subperm_of_subset h2 (fun a ha => (hm a).2 ha)).length_le

theorem reach_congr {img : ImageData} {q p r : ℤ × ℤ} (hqp : Reach img q p) :
    Reach img p r ↔ Reach img q r :=
  ⟨fun h => reach_trans hqp h, fun h => reach_trans (reach_symm hqp) h⟩

/-- The invariant of the raster scan after the prefix L of scanPoints has
been processed: the visited set holds exactly the pixel indices of the
components of white pixels in L, and largest/maxArea track the largest
component discovered so far (ties keeping the raster-earliest). -/
def ScanInv (img : ImageData) (L : List (ℤ × ℤ)) (S : ScanState) : Prop :=
  (∀ i ∈ S.visited, ∃ p, IsWhite img p ∧ pIdx img p = i) ∧
  (∀ p, IsWhite img p →
    (pIdx img p ∈ S.visited ↔ ∃ q ∈ L, IsWhite img q ∧ Reach img q p)) ∧
  ((S.largest = [] ∧ S.maxArea = 0 ∧ ∀ p ∈ L, ¬ IsWhite img p) ∨
    (∃ s, IsWhite img s ∧ s ∈ L ∧
      (∀ p, p ∈ S.largest ↔ Reach img s p) ∧
      (S.largest.map (pIdx img)).Nodup ∧
      S.maxArea = S.largest.length ∧
      (∀ p, Reach img s p → rIdx img s ≤ rIdx img p) ∧
      (∀ t, t ∈ L → IsWhite img t →
        ∀ U : List (ℤ × ℤ), U.Nodup → (∀ p, p ∈ U ↔ Reach img t p) →
          U.length ≤ S.maxArea ∧
            (U.length = S.maxArea → ∀ r, Reach img t r → rIdx img s ≤ rIdx img r))))

theorem scanInv_init (img : ImageData) : ScanInv img [] ⟨∅, 0, []⟩ := by
  refine ⟨?_, ?_, Or.inl ⟨rfl, rfl, ?_⟩⟩
  · intro i hi
    exact absurd hi (Finset.not_mem_empty i)
  · intro p _
    constructor
    · intro h
      exact absurd h (Finset.not_mem_empty _)
    · rintro ⟨q, hq, _⟩
      exact absurd hq (List.not_mem_nil q)
  · intro p hp
    exact absurd hp (List.not_mem_nil p)

theorem scanInv_step (img : ImageData) (L1 L2 : List (ℤ × ℤ)) (p : ℤ × ℤ) (S : ScanState)
    (hsplit : scanPoints img = L1 ++ p :: L2) (hInv : ScanInv img L1 S) :
    ScanInv img (L1 ++ [p]) (scanStep img S p) := by
  obtain ⟨hA, hB, hC⟩ := hInv
  have hpmem : p ∈ scanPoints img := by
    rw [hsplit]
    exact List.mem_append.2 (Or.inr (List.mem_cons_self _ _))
  have hpair := scanPoints_pairwise img
  rw [hsplit, List.pairwise_append] at hpair
  obtain ⟨hp1, hp2, hp12⟩ := hpair
  have f2 : ∀ q ∈ L1, rIdx img q < rIdx img p :=
    fun q hq => hp12 q hq p (List.mem_cons_self _ _)
  have f3 : ∀ q, InBounds img q → rIdx img q < rIdx img p → q ∈ L1 := by
    intro q hqb hlt
    have hqmem : q ∈ scanPoints img := (mem_scanPoints img q).2 hqb
    rw [hsplit, List.mem_append] at hqmem
    rcases hqmem with h | h
    · exact h
    · rcases List.mem_cons.1 h with h | h
      · rw [h] at hlt
        exact absurd hlt (lt_irrefl _)
      · have := (List.pairwise_cons.1 hp2).1 q h
        omega
  by_cases htrig : pixIdx img p.1 p.2 ∉ S.visited ∧ isWhitePixel img p.1 p.2 = true
  · obtain ⟨hnv, hwp⟩ := htrig
    have hwhitep : IsWhite img p := hwp
    have hVc : ∀ r, IsWhite img r → pIdx img r ∈ S.visited → ∀ q, adj8 r q →
        IsWhite img q → pIdx img q ∈ S.visited := by
      intro r hwr hrv q hadj hwq
      obtain ⟨q0, hq0L, hq0w, hq0r⟩ := (hB r hwr).1 hrv
      exact (hB q hwq).2
        ⟨q0, hq0L, hq0w, reach_trans hq0r (Relation.ReflTransGen.single ⟨hwr, hwq, hadj⟩)⟩
    obtain ⟨m0, m1, m2, m3, m4⟩ := floodFill_run img S.visited p hwhitep hnv hA hVc
    have hpself : p ∈ (floodFill img S.visited [p] [] 0).2.1 :=
      (m0 p).2 Relation.ReflTransGen.refl
    have hlen1 : 1 ≤ (floodFill img S.visited [p] [] 0).2.2 := by
      rw [m1]
      exact List.length_pos.2 (List.ne_nil_of_mem hpself)
    have hpmin : ∀ r, Reach img p r → rIdx img p ≤ rIdx img r := by
      intro r hr
      by_contra hlt
      push_neg at hlt
      have hrw : IsWhite img r := reach_white hwhitep hr
      have hrL1 : r ∈ L1 := f3 r (white_inBounds hrw) hlt
      exact m4 r hr ((hB r hrw).2 ⟨r, hrL1, hrw, Relation.ReflTransGen.refl⟩)
    have hA2 : ∀ i ∈ (floodFill img S.visited [p] [] 0).1,
        ∃ q, IsWhite img q ∧ pIdx img q = i := by
      intro i hi
      rcases (m3 i).1 hi with h | ⟨q, hq, hqi⟩
      · exact hA i h
      · exact ⟨q, reach_white hwhitep hq, hqi⟩
    have hB2 : ∀ r, IsWhite img r →
        (pIdx img r ∈ (floodFill img S.visited [p] [] 0).1 ↔
          ∃ q ∈ L1 ++ [p], IsWhite img q ∧ Reach img q r) := by
      intro r hwr
      constructor
      · intro hi
        rcases (m3 (pIdx img r)).1 hi with h | ⟨q, hq, hqi⟩
        · obtain ⟨q0, hq0L, hq0w, hq0r⟩ := (hB r hwr).1 h
          exact ⟨q0, List.mem_append.2 (Or.inl hq0L), hq0w, hq0r⟩
        · have hqw : IsWhite img q := reach_white hwhitep hq
          have : q = r := pixIdx_inj hqw hwr hqi
          subst this
          exact ⟨p, List.mem_append.2 (Or.inr (List.mem_cons_self _ _)), hwhitep, hq⟩
      · rintro ⟨q, hq, hwq, hqr⟩
        rcases List.mem_append.1 hq with h | h
        · exact (m3 (pIdx img r)).2 (Or.inl ((hB r hwr).2 ⟨q, h, hwq, hqr⟩))
        · rw [List.mem_singleton.1 h] at hqr
          exact (m3 (pIdx img r)).2 (Or.inr ⟨r, hqr, rfl⟩)
    have hUlen : ∀ U : List (ℤ × ℤ), U.Nodup → (∀ r, r ∈ U ↔ Reach img p r) →
        U.length = (floodFill img S.visited [p] [] 0).2.2 := by
      intro U hU hUm
      rw [m1]
      exact length_eq_of_same_mem hU (List.Nodup.of_map _ m2)
        (fun r => (hUm r).trans (m0 r).symm)
    rw [scanStep, if_pos ⟨hnv, hwp⟩]
    by_cases harea : S.maxArea < (floodFill img S.visited [p] [] 0).2.2
    · rw [if_pos harea]
      refine ⟨hA2, hB2, Or.inr ⟨p, hwhitep,
        List.mem_append.2 (Or.inr (List.mem_cons_self _ _)), m0, m2, m1, hpmin, ?_⟩⟩
      intro t ht hwt U hU hUm
      dsimp only
      rcases List.mem_append.1 ht with h | h
      · rcases hC with ⟨_, hmax0, hnow⟩ | ⟨s, _, _, _, _, _, _, htie⟩
        · exact absurd hwt (hnow t h)
        · obtain ⟨hle, _⟩ := htie t h hwt U hU hUm
          constructor
          · omega
          · intro heq
            omega
      · have ht2 : t = p := List.mem_singleton.1 h
        subst ht2
        rw [hUlen U hU hUm]
        exact ⟨le_refl _, fun _ => hpmin⟩
    · rw [if_neg harea]
      push_neg at harea
      rcases hC with ⟨_, hmax0, _⟩ | ⟨s, hsw, hsL, hlarg, hnd, hmax, hsmin, htie⟩
      · omega
      · refine ⟨hA2, hB2, Or.inr ⟨s, hsw, List.mem_append.2 (Or.inl hsL), hlarg, hnd,
          hmax, hsmin, ?_⟩⟩
        intro t ht hwt U hU hUm
        dsimp only
        rcases List.mem_append.1 ht with h | h
        · exact htie t h hwt U hU hUm
        · have ht2 : t = p := List.mem_singleton.1 h
          subst ht2
          rw [hUlen U hU hUm]
          refine ⟨harea, fun _ r hr => ?_⟩
          exact le_trans (le_of_lt (f2 s hsL)) (hpmin r hr)
  · rw [scanStep, if_neg htrig]
    have hnt : IsWhite img p → pIdx img p ∈ S.visited := by
      intro hwp
      by_contra hni
      exact htrig ⟨hni, hwp⟩
    have hBp : IsWhite img p → ∃ q0 ∈ L1, IsWhite img q0 ∧ Reach img q0 p := by
      intro hwp
      exact (hB p hwp).1 (hnt hwp)
    refine ⟨hA, ?_, ?_⟩
    · intro r hwr
      constructor
      · intro hi
        obtain ⟨q0, hq0L, hq0w, hq0r⟩ := (hB r hwr).1 hi
        exact ⟨q0, List.mem_append.2 (Or.inl hq0L), hq0w, hq0r⟩
      · rintro ⟨q, hq, hwq, hqr⟩
        rcases List.mem_append.1 hq with h | h
        · exact (hB r hwr).2 ⟨q, h, hwq, hqr⟩
        · rw [List.mem_singleton.1 h] at hwq hqr
          obtain ⟨q0, hq0L, hq0w, hq0r⟩ := hBp hwq
          exact (hB r hwr).2 ⟨q0, hq0L, hq0w, reach_trans hq0r hqr⟩
    · rcases hC with ⟨hl0, hmax0, hnow⟩ | ⟨s, hsw, hsL, hlarg, hnd, hmax, hsmin, htie⟩
      · refine Or.inl ⟨hl0, hmax0, ?_⟩
        intro q hq
        rcases List.mem_append.1 hq with h | h
        · exact hnow q h
        · rw [List.mem_singleton.1 h]
          intro hwp
          obtain ⟨q0, hq0L, hq0w, _⟩ := hBp hwp
          exact hnow q0 hq0L hq0w
      · refine Or.inr ⟨s, hsw, List.mem_append.2 (Or.inl hsL), hlarg, hnd, hmax, hsmin, ?_⟩
        intro t ht hwt U hU hUm
        rcases List.mem_append.1 ht with h | h
        · exact htie t h hwt U hU hUm
        · have ht2 : t = p := List.mem_singleton.1 h
          subst ht2
          obtain ⟨q0, hq0L, hq0w, hq0r⟩ := hBp hwt
          have hUm2 : ∀ r, r ∈ U ↔ Reach img q0 r :=
            fun r => (hUm r).trans (reach_congr hq0r)
          obtain ⟨hle, htieq⟩ := htie q0 hq0L hq0w U hU hUm2
          refine ⟨hle, fun heq r hr => ?_⟩
          exact htieq heq r ((reach_congr hq0r).1 hr)

theorem scanInv_fold (img : ImageData) :
    ∀ (L2 L1 : List (ℤ × ℤ)) (S : ScanState),
      scanPoints img = L1 ++ L2 → ScanInv img L1 S →
      ScanInv img (L1 ++ L2) (L2.foldl (scanStep img) S) := by
  intro L2
  induction L2 with
  | nil =>
    intro L1 S hsplit hInv
    simpa using hInv
  | cons p L2t ih =>
    intro L1 S hsplit hInv
    have hstep := scanInv_step img L1 L2t p S hsplit hInv
    have hsplit2 : scanPoints img = (L1 ++ [p]) ++ L2t := by
      rw [hsplit, List.append_assoc]
      rfl
    have hres := ih (L1 ++ [p]) (scanStep img S p) hsplit2 hstep
    rw [List.foldl_cons]
    rw [List.append_assoc] at hres
    simpa using hres

theorem scanInv_final (img : ImageData) :
    ScanInv img (scanPoints img)
      ((scanPoints img).foldl (scanStep img) ⟨∅, 0, []⟩) := by
  have := scanInv_fold img (scanPoints img) [] ⟨∅, 0, []⟩ rfl (scanInv_init img)
  simpa using this

theorem intFoldl_min_le_start (f : ℤ × ℤ → ℤ) (l : List (ℤ × ℤ)) (b : ℤ) :
    l.foldl (fun m a => min m (f a)) b ≤ b := by
  induction l generalizing b with
  | nil => exact le_refl b
  | cons hd tl ih => exact le_trans (ih (min b (f hd))) (min_le_left _ _)

theorem intFoldl_min_le_of_mem (f : ℤ × ℤ → ℤ) (l : List (ℤ × ℤ)) (b : ℤ)
    (a : ℤ × ℤ) (ha : a ∈ l) : l.foldl (fun m a => min m (f a)) b ≤ f a := by
  induction l generalizing b with
  | nil => cases ha
  | cons hd tl ih =>
    rcases List.mem_cons.1 ha with h | h
    · subst h
      exact le_trans (intFoldl_min_le_start f tl (min b (f a))) (min_le_right _ _)
    · exact ih (min b (f hd)) h

theorem intFoldl_min_eq_or_mem (f : ℤ × ℤ → ℤ) (l : List (ℤ × ℤ)) (b : ℤ) :
    l.foldl (fun m a => min m (f a)) b = b ∨
      ∃ a ∈ l, l.foldl (fun m a => min m (f a)) b = f a := by
  induction l generalizing b with
  | nil => exact Or.inl rfl
  | cons hd tl ih =>
    rcases ih (min b (f hd)) with h | ⟨a, ha, h⟩
    · rcases min_cases b (f hd) with ⟨he, _⟩ | ⟨he, _⟩
      · exact Or.inl (by simpa [he] using h)
      · exact Or.inr ⟨hd, List.mem_cons_self hd tl, by simpa [he] using h⟩
    · exact Or.inr ⟨a, List.mem_cons_of_mem hd ha, h⟩

theorem intFoldl_max_start_le (f : ℤ × ℤ → ℤ) (l : List (ℤ × ℤ)) (b : ℤ) :
    b ≤ l.foldl (fun m a => max m (f a)) b := by
  induction l generalizing b with
  | nil => exact le_refl b
  | cons hd tl ih => exact le_trans (le_max_left _ _) (ih (max b (f hd)))

theorem intFoldl_max_le_of_mem (f : ℤ × ℤ → ℤ) (l : List (ℤ × ℤ)) (b : ℤ)
    (a : ℤ × ℤ) (ha : a ∈ l) : f a ≤ l.foldl (fun m a => max m (f a)) b := by
  induction l generalizing b with
  | nil => cases ha
  | cons hd tl ih =>
    rcases List.mem_cons.1 ha with h | h
    · subst h
      exact le_trans (le_max_right _ _) (intFoldl_max_start_le f tl (max b (f a)))
    · exact ih (max b (f hd)) h

theorem intFoldl_max_eq_or_mem (f : ℤ × ℤ → ℤ) (l : List (ℤ × ℤ)) (b : ℤ) :
    l.foldl (fun m a => max m (f a)) b = b ∨
      ∃ a ∈ l, l.foldl (fun m a => max m (f a)) b = f a := by
  induction l generalizing b with
  | nil => exact Or.inl rfl
  | cons hd tl ih =>
    rcases ih (max b (f hd)) with h | ⟨a, ha, h⟩
    · rcases max_cases b (f hd) with ⟨he, _⟩ | ⟨he, _⟩
      · exact Or.inl (by simpa [he] using h)
      · exact Or.inr ⟨hd, List.mem_cons_self hd tl, by simpa [he] using h⟩
    · exact Or.inr ⟨a, List.mem_cons_of_mem hd ha, h⟩

/-- C5: findLargestContour returns null exactly when the buffer has no white
pixel; otherwise it returns the axis-aligned bounding box (as the source
computes it, with width = maxX - minX and height = maxY - minY) of the
8-connected white component T of maximum pixel count, and among components
tying on maximum count the one encountered earliest in raster order wins:
the winner's raster-first pixel s precedes every pixel of any tied
component. -/
theorem findLargestContour_spec (img : ImageData) :
    (findLargestContour img = none ↔ ∀ x y, isWhitePixel img x y = false) ∧
    (∀ box, findLargestContour img = some box →
      ∃ (s : ℤ × ℤ) (T : List (ℤ × ℤ)),
        IsWhite img s ∧ T.Nodup ∧ (∀ q, q ∈ T ↔ Reach img s q) ∧
        (∀ q ∈ T, rIdx img s ≤ rIdx img q) ∧
        (∀ t U, IsWhite img t → List.Nodup U → (∀ q, q ∈ U ↔ Reach img t q) →
          U.length ≤ T.length ∧
            (U.length = T.length → ∀ q ∈ U, rIdx img s ≤ rIdx img q)) ∧
        (∃ q ∈ T, q.1 = box.x) ∧ (∀ q ∈ T, box.x ≤ q.1) ∧
        (∃ q ∈ T, q.2 = box.y) ∧ (∀ q ∈ T, box.y ≤ q.2) ∧
        (∃ q ∈ T, q.1 = box.x + box.width) ∧ (∀ q ∈ T, q.1 ≤ box.x + box.width) ∧
        (∃ q ∈ T, q.2 = box.y + box.height) ∧ (∀ q ∈ T, q.2 ≤ box.y + box.height)) := by
  obtain ⟨hA, hB, hC⟩ := scanInv_final img
  constructor
  · constructor
    · intro hnone x y
      rw [findLargestContour] at hnone
      by_cases hl : ((scanPoints img).foldl (scanStep img) ⟨∅, 0, []⟩).largest = []
      · rcases hC with ⟨_, _, hnow⟩ | ⟨s, _, _, hlarg, _, _, _, _⟩
        · cases hval : isWhitePixel img x y
          · rfl
          · have hw : IsWhite img (x, y) := hval
            exact absurd hw (hnow (x, y) ((mem_scanPoints img (x, y)).2 (white_inBounds hw)))
        · exact absurd hl (List.ne_nil_of_mem ((hlarg s).2 Relation.ReflTransGen.refl))
      · rw [if_neg hl] at hnone
        exact absurd hnone (Option.some_ne_none _)
    · intro hnow
      rcases hC with ⟨hl0, _, _⟩ | ⟨s, hsw, _, _, _, _, _, _⟩
      · rw [findLargestContour, if_pos hl0]
      · have : isWhitePixel img s.1 s.2 = false := hnow s.1 s.2
        rw [IsWhite] at hsw
        rw [this] at hsw
        exact absurd hsw (by simp)
  · intro box hbox
    rw [findLargestContour] at hbox
    by_cases hl : ((scanPoints img).foldl (scanStep img) ⟨∅, 0, []⟩).largest = []
    · rw [if_pos hl] at hbox
      exact absurd hbox (by simp)
    · rw [if_neg hl] at hbox
      have hbox2 : contourBoundingBox img
          ((scanPoints img).foldl (scanStep img) ⟨∅, 0, []⟩).largest = box :=
        Option.some.inj hbox
      rcases hC with ⟨hl0, _, _⟩ | ⟨s, hsw, hsL, hlarg, hnd, hmax, hsmin, htie⟩
      · exact absurd hl0 hl
      · refine ⟨s, ((scanPoints img).foldl (scanStep img) ⟨∅, 0, []⟩).largest,
          hsw, List.Nodup.of_map _ hnd, hlarg, ?_, ?_, ?_⟩
        · intro q hq
          exact hsmin q ((hlarg q).1 hq)
        · intro t U hwt hU hUm
          obtain ⟨hle, htieq⟩ := htie t ((mem_scanPoints img t).2 (white_inBounds hwt)) hwt
            U hU hUm
          rw [hmax] at hle
          refine ⟨hle, fun heq q hq => ?_⟩
          rw [← hmax] at heq
          exact htieq heq q ((hUm q).1 hq)
        · have hsmem : s ∈ ((scanPoints img).foldl (scanStep img) ⟨∅, 0, []⟩).largest :=
            (hlarg s).2 Relation.ReflTransGen.refl
          have hbnd : ∀ q ∈ ((scanPoints img).foldl (scanStep img) ⟨∅, 0, []⟩).largest,
              0 ≤ q.1 ∧ q.1 < img.width ∧ 0 ≤ q.2 ∧ q.2 < img.height :=
            fun q hq => white_inBounds (reach_white hsw ((hlarg q).1 hq))
          rw [← hbox2]
          have hminx := intFoldl_min_eq_or_mem Prod.fst
            ((scanPoints img).foldl (scanStep img) ⟨∅, 0, []⟩).largest (img.width : ℤ)
          have hminy := intFoldl_min_eq_or_mem Prod.snd
            ((scanPoints img).foldl (scanStep img) ⟨∅, 0, []⟩).largest (img.height : ℤ)
          have hmaxx := intFoldl_max_eq_or_mem Prod.fst
            ((scanPoints img).foldl (scanStep img) ⟨∅, 0, []⟩).largest 0
          have hmaxy := intFoldl_max_eq_or_mem Prod.snd
            ((scanPoints img).foldl (scanStep img) ⟨∅, 0, []⟩).largest 0
          refine ⟨?_, ?_, ?_, ?_, ?_, ?_, ?_, ?_⟩
          · rcases hminx with h | ⟨a, ha, h⟩
            · have h1 := intFoldl_min_le_of_mem Prod.fst _ (img.width : ℤ) s hsmem
              rw [h] at h1
              exact absurd ((hbnd s hsmem).2.1) (not_lt.2 h1)
            · exact ⟨a, ha, h.symm⟩
          · intro q hq
            exact intFoldl_min_le_of_mem Prod.fst _ (img.width : ℤ) q hq
          · rcases hminy with h | ⟨a, ha, h⟩
            · have h1 := intFoldl_min_le_of_mem Prod.snd _ (img.height : ℤ) s hsmem
              rw [h] at h1
              exact absurd ((hbnd s hsmem).2.2.2) (not_lt.2 h1)
            · exact ⟨a, ha, h.symm⟩
          · intro q hq
            exact intFoldl_min_le_of_mem Prod.snd _ (img.height : ℤ) q hq
          · have hsum : (contourBoundingBox img
                ((scanPoints img).foldl (scanStep img) ⟨∅, 0, []⟩).largest).x +
                (contourBoundingBox img
                  ((scanPoints img).foldl (scanStep img) ⟨∅, 0, []⟩).largest).width =
                ((scanPoints img).foldl (scanStep img) ⟨∅, 0, []⟩).largest.foldl
                  (fun m q => max m q.1) 0 := by
              show ((scanPoints img).foldl (scanStep img) ⟨∅, 0, []⟩).largest.foldl
                  (fun m q => min m q.1) (img.width : ℤ) +
                (((scanPoints img).foldl (scanStep img) ⟨∅, 0, []⟩).largest.foldl
                  (fun m q => max m q.1) 0 -
                  ((scanPoints img).foldl (scanStep img) ⟨∅, 0, []⟩).largest.foldl
                    (fun m q => min m q.1) (img.width : ℤ)) = _
              ring
            rw [hsum]
            rcases hmaxx with h | ⟨a, ha, h⟩
            · have h1 := intFoldl_max_le_of_mem Prod.fst _ 0 s hsmem
              rw [h] at h1
              rw [h]
              exact ⟨s, hsmem, le_antisymm h1 (hbnd s hsmem).1⟩
            · exact ⟨a, ha, h.symm⟩
          · intro q hq
            have hsum : (contourBoundingBox img
                ((scanPoints img).foldl (scanStep img) ⟨∅, 0, []⟩).largest).x +
                (contourBoundingBox img
                  ((scanPoints img).foldl (scanStep img) ⟨∅, 0, []⟩).largest).width =
                ((scanPoints img).foldl (scanStep img) ⟨∅, 0, []⟩).largest.foldl
                  (fun m q => max m q.1) 0 := by
              show ((scanPoints img).foldl (scanStep img) ⟨∅, 0, []⟩).largest.foldl
                  (fun m q => min m q.1) (img.width : ℤ) +
                (((scanPoints img).foldl (scanStep img) ⟨∅, 0, []⟩).largest.foldl
                  (fun m q => max m q.1) 0 -
                  ((scanPoints img).foldl (scanStep img) ⟨∅, 0, []⟩).largest.foldl
                    (fun m q => min m q.1) (img.width : ℤ)) = _
              ring
            rw [hsum]
            exact intFoldl_max_le_of_mem Prod.fst _ 0 q hq
          · have hsum : (contourBoundingBox img
                ((scanPoints img).foldl (scanStep img) ⟨∅, 0, []⟩).largest).y +
                (contourBoundingBox img
                  ((scanPoints img).foldl (scanStep img) ⟨∅, 0, []⟩).largest).height =
                ((scanPoints img).foldl (scanStep img) ⟨∅, 0, []⟩).largest.foldl
                  (fun m q => max m q.2) 0 := by
              show ((scanPoints img).foldl (scanStep img) ⟨∅, 0, []⟩).largest.foldl
                  (fun m q => min m q.2) (img.height : ℤ) +
                (((scanPoints img).foldl (scanStep img) ⟨∅, 0, []⟩).largest.foldl
                  (fun m q => max m q.2) 0 -
                  ((scanPoints img).foldl (scanStep img) ⟨∅, 0, []⟩).largest.foldl
                    (fun m q => min m q.2) (img.height : ℤ)) = _
              ring
            rw [hsum]
            rcases hmaxy with h | ⟨a, ha, h⟩
            · have h1 := intFoldl_max_le_of_mem Prod.snd _ 0 s hsmem
              rw [h] at h1
              rw [h]
              exact ⟨s, hsmem, le_antisymm h1 (hbnd s hsmem).2.2.1⟩
            · exact ⟨a, ha, h.symm⟩
          · intro q hq
            have hsum : (contourBoundingBox img
                ((scanPoints img).foldl (scanStep img) ⟨∅, 0, []⟩).largest).y +
                (contourBoundingBox img
                  ((scanPoints img).foldl (scanStep img) ⟨∅, 0, []⟩).largest).height =
                ((scanPoints img).foldl (scanStep img) ⟨∅, 0, []⟩).largest.foldl
                  (fun m q => max m q.2) 0 := by
              show ((scanPoints img).foldl (scanStep img) ⟨∅, 0, []⟩).largest.foldl
                  (fun m q => min m q.2) (img.height : ℤ) +
                (((scanPoints img).foldl (scanStep img) ⟨∅, 0, []⟩).largest.foldl
                  (fun m q => max m q.2) 0 -
                  ((scanPoints img).foldl (scanStep img) ⟨∅, 0, []⟩).largest.foldl
                    (fun m q => min m q.2) (img.height : ℤ)) = _
              ring
            rw [hsum]
            exact intFoldl_max_le_of_mem Prod.snd _ 0 q hq

/-- A 4 x 1 frame: white pixels at x = 0, 2, 3 (components of area 1 and 2). -/
def demoImage : ImageData :=
  ⟨4, 1, [255, 255, 255, 255, 0, 0, 0, 255, 255, 255, 255, 255, 255, 255, 255, 255]⟩


/-- Witness for C5 at the 4 x 1 demo frame: the analyzer discards the area-1
component at x = 0 and returns the box of the area-2 component at x = 2..3. -/
theorem findLargestContour_spec_witness :
    ∃ (s : ℤ × ℤ) (T : List (ℤ × ℤ)),
      IsWhite demoImage s ∧ T.Nodup ∧ (∀ q, q ∈ T ↔ Reach demoImage s q) ∧
        (∀ q ∈ T, rIdx demoImage s ≤ rIdx demoImage q) ∧
        (∀ t U, IsWhite demoImage t → List.Nodup U →
          (∀ q, q ∈ U ↔ Reach demoImage t q) →
          U.length ≤ T.length ∧
            (U.length = T.length → ∀ q ∈ U, rIdx demoImage s ≤ rIdx demoImage q)) ∧
        (∃ q ∈ T, q.1 = (BBox.mk 2 0 1 0).x) ∧ (∀ q ∈ T, (BBox.mk 2 0 1 0).x ≤ q.1) ∧
        (∃ q ∈ T, q.2 = (BBox.mk 2 0 1 0).y) ∧ (∀ q ∈ T, (BBox.mk 2 0 1 0).y ≤ q.2) ∧
        (∃ q ∈ T, q.1 = (BBox.mk 2 0 1 0).x + (BBox.mk 2 0 1 0).width) ∧
        (∀ q ∈ T, q.1 ≤ (BBox.mk 2 0 1 0).x + (BBox.mk 2 0 1 0).width) ∧
        (∃ q ∈ T, q.2 = (BBox.mk 2 0 1 0).y + (BBox.mk 2 0 1 0).height) ∧
        (∀ q ∈ T, q.2 ≤ (BBox.mk 2 0 1 0).y + (BBox.mk 2 0 1 0).height) :=
  (findLargestContour_spec demoImage).2 (BBox.mk 2 0 1 0) (by
    have hscan : scanPoints demoImage = [((0 : ℤ), (0 : ℤ)), (1, 0), (2, 0), (3, 0)] := by
      rfl
    rw [findLargestContour, hscan]
    simp +decide [scanStep, floodFill.eq_def, pushIf, neighborsOf, isWhitePixel, pixIdx,
      demoImage, contourBoundingBox])

end Contour


end Senyas
